import Mathlib

/-!
# Formula calculator (`formulaCalculator/fcalc.h`, `formulaCalculator/fcalc.cpp`)

A shallow embedding of the tokenizer (`FormulaBuilder::parseFormula`), the
operator-precedence tree builder (`FormulaBuilder::buildAST`,
`FormulaBuilder::collapseStack`, `FormulaBuilder::buildExpression`) and the
expression tree (`IOperation` and its subclasses), followed by theorems about
them.

Conventions of the embedding.

* `std::string` is a `List Char`; `std::vector<RawToken>` is a `List`;
  `std::stack<IOperationPtr>` is a `List` whose head is the top of the stack.
* `IOperationPtr` is a tree with an explicit `null`; `setLeftArg`/`setRightArg`
  mutate a node that nothing else reads afterwards, so mutation is replacement.
* The C++ type `double`, the conversions to and from `long` and the library
  function `std::stod` are not code of the repository: they are the fields of
  `DoubleModel`, and every general theorem holds for every such model.
* A run that executes undefined behaviour (a null pointer dereference, a
  failed `assert`, an integer remainder by zero, an out-of-range conversion to
  `long`) ends in `Outcome.fault`.  The builder evaluates trees while it works,
  since its log lines print `calc()`; those evaluations are part of the model.
* The recursion of `buildAST` over the cursor is bounded by a fuel counter;
  `buildExpression` supplies one unit per token plus one, which always suffices
  (`buildASTLoop_fuel`).
* Statements about what happens during a run (every call of `collapseStack`,
  every read of a token, a failure somewhere in a nested call) are made on the
  list of events of the run, `buildASTLoopTrace`, which follows the branches of
  `buildASTLoop` one by one.
-/

namespace fc

/-! ## Data model -/

/-- Result of running a piece of the program: a returned value, undefined
behaviour, or an exhausted recursion budget (an artefact of the embedding). -/
inductive Outcome (α : Type) where
  | ret (a : α)
  | fault
  | outOfFuel
  deriving DecidableEq, Repr

/-- The arithmetic the program takes from the language and its library:
`double` with its four operations, the conversion `(long)x` (`none` where the
conversion is undefined), the conversion of a `long` back to `double`, the
least value of `long`, and `std::stod`, which yields the parsed value and the
number of characters it consumed, or throws (`none`).  `std::stod` throws
`std::invalid_argument` on the empty string. -/
structure DoubleModel (D : Type) where
  zero : D
  add : D → D → D
  sub : D → D → D
  mul : D → D → D
  div : D → D → D
  toLong : D → Option Int
  ofLong : Int → D
  longMin : Int
  stod : List Char → Option (D × Nat)
  stod_nil : stod [] = none

/-- `RawToken::TokenType`. -/
inductive TokenType where
  | ttUndefined
  | ttNumVal
  | ttAdd
  | ttSub
  | ttMul
  | ttDiv
  | ttLeftBrace
  | ttRightBrace
  | ttRem
  deriving DecidableEq, Repr

/-- `RawToken`: a token type and a value (`0.0` unless given). -/
structure RawToken (D : Type) where
  m_type : TokenType
  m_val : D
  deriving DecidableEq, Repr

/-- The five concrete subclasses of `TwoArgOp`. -/
inductive TwoArgKind where
  | AddOp
  | SubOp
  | MulOp
  | DivOp
  | RemOp
  deriving DecidableEq, Repr

/-- `getPriority()` of the subclasses of `TwoArgOp`. -/
def TwoArgKind.getPriority : TwoArgKind → Nat
  | .AddOp => 0
  | .SubOp => 0
  | .MulOp => 1
  | .DivOp => 1
  | .RemOp => 1

/-- `IOperationPtr`: a null pointer, a `GetValueOp`, or a `TwoArgOp` of one
of the five subclasses with its two (possibly null) argument pointers. -/
inductive IOperationPtr (D : Type) where
  | null
  | GetValueOp (m_val : D)
  | TwoArgOp (kind : TwoArgKind) (m_leftArg m_rightArg : IOperationPtr D)
  deriving DecidableEq, Repr

/-- `OperationsStack`; the head of the list is `top()`. -/
abbrev OperationsStack (D : Type) := List (IOperationPtr D)

/-- `TokensChain`. -/
abbrev TokensChain (D : Type) := List (RawToken D)

variable {D : Type}

/-- Test `!ptr`. -/
def IOperationPtr.isNull : IOperationPtr D → Bool
  | .null => true
  | _ => false

/-- `isTwoArgOp()`; only ever called through a pointer already tested non-null. -/
def IOperationPtr.isTwoArgOp : IOperationPtr D → Bool
  | .TwoArgOp _ _ _ => true
  | _ => false

/-- `getPriority()`; only ever called through a pointer already tested non-null. -/
def IOperationPtr.getPriority : IOperationPtr D → Nat
  | .TwoArgOp k _ _ => k.getPriority
  | _ => 0

/-- The statement `(long)l % (long)r` on two converted operands: undefined for a
zero divisor and for the overflowing quotient `LONG_MIN / -1`, otherwise the
remainder of the division that truncates toward zero. -/
def remLong (longMin a b : Int) : Option Int :=
  if b = 0 then none
  else if a = longMin ∧ b = -1 then none
  else some (Int.tmod a b)

/-- The operation a `TwoArgOp` subclass applies to the values of its
arguments in `calc()`. -/
def TwoArgKind.apply (fp : DoubleModel D) : TwoArgKind → D → D → Option D
  | .AddOp, x, y => some (fp.add x y)
  | .SubOp, x, y => some (fp.sub x y)
  | .MulOp, x, y => some (fp.mul x y)
  | .DivOp, x, y => some (fp.div x y)
  | .RemOp, x, y =>
    match fp.toLong x, fp.toLong y with
    | some a, some b => (remLong fp.longMin a b).map fp.ofLong
    | _, _ => none

/-- `calc()`; `none` when the evaluation executes undefined behaviour
(a null argument pointer, or an undefined remainder). -/
def IOperationPtr.calc (fp : DoubleModel D) : IOperationPtr D → Option D
  | .null => none
  | .GetValueOp v => some v
  | .TwoArgOp k l r =>
    match l.calc fp, r.calc fp with
    | some x, some y => k.apply fp x y
    | _, _ => none

/-- `IOperation::buildOpWithoutAgrs`: a fresh operator node without arguments;
the default branch leaves the result null. -/
def buildOpWithoutAgrs : TokenType → IOperationPtr D
  | .ttAdd => .TwoArgOp .AddOp .null .null
  | .ttSub => .TwoArgOp .SubOp .null .null
  | .ttMul => .TwoArgOp .MulOp .null .null
  | .ttDiv => .TwoArgOp .DivOp .null .null
  | .ttRem => .TwoArgOp .RemOp .null .null
  | _ => .null

/-- `setLeftArg` followed by `setRightArg` on a node reached through
`static_cast<TwoArgOp&>`. -/
def IOperationPtr.setArgs : IOperationPtr D → IOperationPtr D → IOperationPtr D → IOperationPtr D
  | .TwoArgOp k _ _, lArg, rArg => .TwoArgOp k lArg rArg
  | p, _, _ => p

/-! ## `FormulaBuilder::collapseStack` -/

/-- Body of `collapseStack` on a non-empty stack `top :: below`. -/
def collapseFrom (fp : DoubleModel D) (lastOpPriority : Nat) :
    IOperationPtr D → OperationsStack D → Outcome (IOperationPtr D × OperationsStack D)
  | top, [] =>
    -- size 1: the log line evaluates `opStack.top()->calc()`
    if (top.calc fp).isNone then .fault else .ret (top, [top])
  | top, [x] =>
    -- size 2
    .ret (.null, [top, x])
  | rArg, op :: lArg :: rest =>
    if rArg.isNull || op.isNull then .ret (.null, rest)
    else if !op.isTwoArgOp then .fault
    else if op.getPriority < lastOpPriority then
      -- the three nodes go back, the log line evaluates the top
      if (rArg.calc fp).isNone then .fault else .ret (rArg, rArg :: op :: lArg :: rest)
    else if lArg.isNull then .fault
    else collapseFrom fp lastOpPriority (op.setArgs lArg rArg) rest

/-- `FormulaBuilder::collapseStack`: the returned pointer and the stack left behind. -/
def collapseStack (fp : DoubleModel D) (opStack : OperationsStack D) (lastOpPriority : Nat) :
    Outcome (IOperationPtr D × OperationsStack D) :=
  match opStack with
  | [] => .ret (.null, [])
  | top :: below => collapseFrom fp lastOpPriority top below

/-! ## `FormulaBuilder::buildAST` -/

/-- What a call of `buildAST` leaves behind: the returned pointer, the cursor
`currPos` and the stack `opStack` (both passed by reference). -/
structure BuildResult (D : Type) where
  res : IOperationPtr D
  currPos : Nat
  opStack : OperationsStack D
  deriving DecidableEq, Repr

/-- The code after the `while` loop of `buildAST`: the final collapse. -/
def buildASTFinish (fp : DoubleModel D) (currPos : Nat) (opStack : OperationsStack D) :
    Outcome (BuildResult D) :=
  match collapseStack fp opStack 0 with
  | .ret (exprResult, st) => .ret ⟨exprResult, currPos, st⟩
  | .fault => .fault
  | .outOfFuel => .outOfFuel

/-- The `while` loop of `buildAST` from the loop state `(currPos,
prevOperation, opStack)`, followed by the final collapse.  A left brace calls
the function again with a fresh stack and no previous operation. -/
def buildASTLoop (fp : DoubleModel D) (tkChain : TokensChain D) :
    Nat → Nat → Option (IOperationPtr D) → OperationsStack D → Outcome (BuildResult D)
  | 0, _, _, _ => .outOfFuel
  | fuel + 1, currPos, prevOperation, opStack =>
    match tkChain.get? currPos with
    | none => buildASTFinish fp currPos opStack
    | some currToken =>
      match currToken.m_type with
      | .ttNumVal =>
        buildASTLoop fp tkChain fuel (currPos + 1) prevOperation
          (.GetValueOp currToken.m_val :: opStack)
      | .ttLeftBrace =>
        match buildASTLoop fp tkChain fuel (currPos + 1) none [] with
        | .ret sub =>
          if sub.res.isNull then .ret ⟨.null, sub.currPos, opStack⟩
          else if (sub.res.calc fp).isNone then .fault
          else buildASTLoop fp tkChain fuel (sub.currPos + 1) prevOperation (sub.res :: opStack)
        | .fault => .fault
        | .outOfFuel => .outOfFuel
      | .ttRightBrace => buildASTFinish fp currPos opStack
      | .ttUndefined => .ret ⟨.null, currPos, opStack⟩
      | opType =>
        let newOp : IOperationPtr D := buildOpWithoutAgrs opType
        if newOp.isNull then .fault
        else
          match prevOperation with
          | some prev =>
            if prev.getPriority ≥ newOp.getPriority then
              match collapseStack fp opStack newOp.getPriority with
              | .ret (collapseRes, st) =>
                if collapseRes.isNull then .ret ⟨.null, currPos, st⟩
                else buildASTLoop fp tkChain fuel (currPos + 1) (some newOp) (newOp :: st)
              | .fault => .fault
              | .outOfFuel => .outOfFuel
            else buildASTLoop fp tkChain fuel (currPos + 1) (some newOp) (newOp :: opStack)
          | none => buildASTLoop fp tkChain fuel (currPos + 1) (some newOp) (newOp :: opStack)

/-- `FormulaBuilder::buildAST`, entered with `prevOperation = nullptr`. -/
def buildAST (fp : DoubleModel D) (fuel : Nat) (tkChain : TokensChain D) (currPos : Nat)
    (opStack : OperationsStack D) : Outcome (BuildResult D) :=
  buildASTLoop fp tkChain fuel currPos none opStack

/-! ## `FormulaBuilder::parseFormula` -/

/-- The strings that successive calls `std::getline(ss, opStr, (char) 32)`
extract from the stream: the pieces between spaces, a piece being reported
even when empty unless the stream is already exhausted. -/
def getlineFields : List Char → List (List Char)
  | [] => []
  | c :: cs =>
    if c = ' ' then [] :: getlineFields cs
    else
      match getlineFields cs with
      | [] => [[c]]
      | f :: fs => (c :: f) :: fs

/-- State of the tokenizer loop: the vector `result` and the two counters. -/
structure ParseState (D : Type) where
  result : TokensChain D
  nOpeningBraces : Nat
  nClosingBraces : Nat

/-- The `while` loop of `parseFormula` inside its `try` block.  An exception
(thrown by `std::stod`, or the `std::logic_error` for a partly consumed field)
leaves the loop, the handler clears `result`, and the counters keep the values
they had. -/
def parseLoop (fp : DoubleModel D) : List (List Char) → ParseState D → ParseState D
  | [], st => st
  | opStr :: rest, st =>
    if opStr = ['+'] then
      parseLoop fp rest { st with result := st.result ++ [⟨.ttAdd, fp.zero⟩] }
    else if opStr = ['-'] then
      parseLoop fp rest { st with result := st.result ++ [⟨.ttSub, fp.zero⟩] }
    else if opStr = ['*'] then
      parseLoop fp rest { st with result := st.result ++ [⟨.ttMul, fp.zero⟩] }
    else if opStr = ['/'] then
      parseLoop fp rest { st with result := st.result ++ [⟨.ttDiv, fp.zero⟩] }
    else if opStr = ['%'] then
      parseLoop fp rest { st with result := st.result ++ [⟨.ttRem, fp.zero⟩] }
    else if opStr = ['('] then
      parseLoop fp rest { st with result := st.result ++ [⟨.ttLeftBrace, fp.zero⟩],
                                  nOpeningBraces := st.nOpeningBraces + 1 }
    else if opStr = [')'] then
      parseLoop fp rest { st with result := st.result ++ [⟨.ttRightBrace, fp.zero⟩],
                                  nClosingBraces := st.nClosingBraces + 1 }
    else
      match fp.stod opStr with
      | none => { st with result := [] }
      | some (val, dParsePos) =>
        if dParsePos ≠ opStr.length then { st with result := [] }
        else parseLoop fp rest { st with result := st.result ++ [⟨.ttNumVal, val⟩] }

/-- `FormulaBuilder::parseFormula`. -/
def parseFormula (fp : DoubleModel D) (inputFormula : List Char) : TokensChain D :=
  if inputFormula.length > 1024 * 1024 * 1024 then []
  else
    let st := parseLoop fp (getlineFields inputFormula) ⟨[], 0, 0⟩
    if st.nOpeningBraces ≠ st.nClosingBraces then [] else st.result

/-! ## `FormulaBuilder::buildExpression` -/

/-- `FormulaBuilder::buildExpression`. -/
def buildExpression (fp : DoubleModel D) (inputFormula : List Char) : Outcome (IOperationPtr D) :=
  let tkChain := parseFormula fp inputFormula
  if tkChain.isEmpty then .ret .null
  else
    match buildAST fp (tkChain.length + 1) tkChain 0 [] with
    | .ret r => if !r.res.isNull && r.opStack.length == 1 then .ret r.res else .ret .null
    | .fault => .fault
    | .outOfFuel => .outOfFuel

/-! ## A concrete arithmetic for evaluating examples -/

/-- Exact fractions `num / den`; `den = 0` marks a value that is not a finite
number.  On integers of small magnitude, and on decimal literals, exact
arithmetic is what IEEE-754 `double` arithmetic computes. -/
structure Frac where
  num : Int
  den : Nat
  deriving DecidableEq, Repr

/-- Reduction to lowest terms. -/
def Frac.norm (n : Int) (d : Nat) : Frac :=
  let g := Nat.gcd n.natAbs d
  if g = 0 then ⟨0, 0⟩ else ⟨n / g, d / g⟩

/-- Integer as a fraction. -/
def Frac.ofInt (n : Int) : Frac := ⟨n, 1⟩

/-- Sum. -/
def Frac.add (a b : Frac) : Frac := Frac.norm (a.num * b.den + b.num * a.den) (a.den * b.den)

/-- Difference. -/
def Frac.sub (a b : Frac) : Frac := Frac.norm (a.num * b.den - b.num * a.den) (a.den * b.den)

/-- Product. -/
def Frac.mul (a b : Frac) : Frac := Frac.norm (a.num * b.num) (a.den * b.den)

/-- Quotient. -/
def Frac.div (a b : Frac) : Frac :=
  Frac.norm (a.num * b.den * Int.sign b.num) (a.den * b.num.natAbs)

/-- Truncation toward zero, defined when the result is a 64-bit `long`. -/
def Frac.toLong (x : Frac) : Option Int :=
  if x.den = 0 then none
  else
    let t := Int.tdiv x.num x.den
    if -(2 ^ 63) ≤ t ∧ t < 2 ^ 63 then some t else none

/-- Value of a string of decimal digits. -/
def natOfDigits (ds : List Char) : Nat :=
  ds.foldl (fun n c => 10 * n + (c.toNat - 48)) 0

/-- A stand-in for `std::stod` on plain decimal literals: an optional sign,
digits, optionally a point and more digits, at least one digit in all.  It
reports the value and the number of characters consumed, and fails when no
digit is found. -/
def stodDecimal (s : List Char) : Option (Frac × Nat) :=
  let neg : Bool := match s with
    | '-' :: _ => true
    | _ => false
  let body : List Char := match s with
    | '-' :: r => r
    | '+' :: r => r
    | _ => s
  let signLen : Nat := s.length - body.length
  let intPart := body.takeWhile Char.isDigit
  let afterInt := body.dropWhile Char.isDigit
  let hasPoint : Bool := match afterInt with
    | '.' :: _ => true
    | _ => false
  let fracPart : List Char := match afterInt with
    | '.' :: r => r.takeWhile Char.isDigit
    | _ => []
  if intPart.isEmpty && fracPart.isEmpty then none
  else
    let mag : Int := (natOfDigits (intPart ++ fracPart) : Nat)
    let v := Frac.norm (if neg then -mag else mag) (10 ^ fracPart.length)
    some (v, signLen + intPart.length + (if hasPoint then 1 + fracPart.length else 0))

/-- The concrete model: exact fractions, 64-bit `long`, decimal literals. -/
def exactModel : DoubleModel Frac where
  zero := Frac.ofInt 0
  add := Frac.add
  sub := Frac.sub
  mul := Frac.mul
  div := Frac.div
  toLong := Frac.toLong
  ofLong := Frac.ofInt
  longMin := -(2 ^ 63)
  stod := stodDecimal
  stod_nil := by decide

/-! ## Vocabulary of the statements -/

/-- The seven fields the tokenizer recognises before it tries a number. -/
def symbolFields : List (List Char) :=
  [['+'], ['-'], ['*'], ['/'], ['%'], ['('], [')']]

/-- A field that `std::stod` converts and consumes in full. -/
def FullyParsed (fp : DoubleModel D) (f : List Char) : Prop :=
  ∃ v, fp.stod f = some (v, f.length)

/-- A returned pointer that is a tree: `buildExpression` returned, and what
it returned is not null. -/
def ReturnsTree (o : Outcome (IOperationPtr D)) (t : IOperationPtr D) : Prop :=
  o = .ret t ∧ t.isNull = false

/-- Every `TwoArgOp` node reachable from the pointer has both arguments
attached, and the pointer itself is not null. -/
def IOperationPtr.Complete : IOperationPtr D → Prop
  | .null => False
  | .GetValueOp _ => True
  | .TwoArgOp _ l r => l.Complete ∧ r.Complete

/-- The line made of the given fields separated by single spaces. -/
def joinFields : List (List Char) → List Char
  | [] => []
  | [f] => f
  | f :: g :: rest => f ++ ' ' :: joinFields (g :: rest)

/-- The token a field stands for: each of the seven symbols stands for the
token of its kind (with the default value `0.0`), and a field that is no
symbol and that `std::stod` consumes in full stands for the number token with
the parsed value. -/
def FieldDenotes (fp : DoubleModel D) (f : List Char) (tok : RawToken D) : Prop :=
  (f = ['+'] ∧ tok = ⟨.ttAdd, fp.zero⟩) ∨
  (f = ['-'] ∧ tok = ⟨.ttSub, fp.zero⟩) ∨
  (f = ['*'] ∧ tok = ⟨.ttMul, fp.zero⟩) ∨
  (f = ['/'] ∧ tok = ⟨.ttDiv, fp.zero⟩) ∨
  (f = ['%'] ∧ tok = ⟨.ttRem, fp.zero⟩) ∨
  (f = ['('] ∧ tok = ⟨.ttLeftBrace, fp.zero⟩) ∨
  (f = [')'] ∧ tok = ⟨.ttRightBrace, fp.zero⟩) ∨
  (f ∉ symbolFields ∧ tok.m_type = .ttNumVal ∧ fp.stod f = some (tok.m_val, f.length))

/-- A field of a line split at single spaces that the tokenizer accepts: not
empty, free of spaces, and a symbol or a fully parsed number. -/
def ValidField (fp : DoubleModel D) (f : List Char) : Prop :=
  f ≠ [] ∧ ' ' ∉ f ∧ (f ∈ symbolFields ∨ FullyParsed fp f)

/-- Well-formed expressions, `E ::= T (op T)*` with `T ::= number | ( E )`,
read from the left: `E ::= T | E op T`. -/
inductive WExpr (D : Type) where
  | num (v : D)
  | paren (e : WExpr D)
  | opNum (e : WExpr D) (op : TwoArgKind) (v : D)
  | opParen (e : WExpr D) (op : TwoArgKind) (g : WExpr D)
  deriving Repr

/-- The token of an operator. -/
def opToken (fp : DoubleModel D) : TwoArgKind → RawToken D
  | .AddOp => ⟨.ttAdd, fp.zero⟩
  | .SubOp => ⟨.ttSub, fp.zero⟩
  | .MulOp => ⟨.ttMul, fp.zero⟩
  | .DivOp => ⟨.ttDiv, fp.zero⟩
  | .RemOp => ⟨.ttRem, fp.zero⟩

/-- The token sequence of a well-formed expression. -/
def WExpr.tokens (fp : DoubleModel D) : WExpr D → TokensChain D
  | .num v => [⟨.ttNumVal, v⟩]
  | .paren e => ⟨.ttLeftBrace, fp.zero⟩ :: (e.tokens fp ++ [⟨.ttRightBrace, fp.zero⟩])
  | .opNum e op v => e.tokens fp ++ [opToken fp op, ⟨.ttNumVal, v⟩]
  | .opParen e op g =>
    e.tokens fp ++ opToken fp op :: ⟨.ttLeftBrace, fp.zero⟩ ::
      (g.tokens fp ++ [⟨.ttRightBrace, fp.zero⟩])

/-- The operators `*`, `/`, `%`, which bind tighter than `+` and `-`. -/
def TwoArgKind.bindsTighter : TwoArgKind → Bool
  | .AddOp => false
  | .SubOp => false
  | .MulOp => true
  | .DivOp => true
  | .RemOp => true

/-- Reading state of the reference parse of `T (op T)*`: the sum read so
far together with the `+` or `-` that follows it (if any), and the product
being read. -/
structure RefState (D : Type) where
  pending : Option (IOperationPtr D × TwoArgKind)
  product : IOperationPtr D

/-- The tree of everything read so far. -/
def RefState.close (s : RefState D) : IOperationPtr D :=
  match s.pending with
  | none => s.product
  | some (sum, op) => .TwoArgOp op sum s.product

/-- Reading `op t`: a tighter operator extends the product to the left of it;
`+` or `-` closes what was read into its left operand and starts a new
product. -/
def RefState.extend (s : RefState D) (op : TwoArgKind) (t : IOperationPtr D) : RefState D :=
  if op.bindsTighter then ⟨s.pending, .TwoArgOp op s.product t⟩
  else ⟨some (s.close, op), t⟩

/-- Reference parse, reading state after the whole expression. -/
def WExpr.refState : WExpr D → RefState D
  | .num v => ⟨none, .GetValueOp v⟩
  | .paren e => ⟨none, e.refState.close⟩
  | .opNum e op v => e.refState.extend op (.GetValueOp v)
  | .opParen e op g => e.refState.extend op g.refState.close

/-- Reference parse: `*`, `/`, `%` bind tighter than `+`, `-`; operators of
equal priority associate to the left; a parenthesised group is one operand. -/
def WExpr.refParse (e : WExpr D) : IOperationPtr D :=
  e.refState.close

/-- Number of loop iterations `buildAST` spends on the level of an expression. -/
def WExpr.items : WExpr D → Nat
  | .num _ => 1
  | .paren _ => 1
  | .opNum e _ _ => e.items + 2
  | .opParen e _ _ => e.items + 2

/-- An operator node without arguments, as `buildOpWithoutAgrs` makes it. -/
def opNode (op : TwoArgKind) : IOperationPtr D :=
  .TwoArgOp op .null .null

/-- Shapes of the stack of one level of `buildAST` after an operand has been
pushed: a single operand; operand, operator, operand; or operand, operator of
priority 0, operand, operator of priority 1, operand. -/
inductive Shape (D : Type) where
  | one (x : IOperationPtr D)
  | pending (x : IOperationPtr D) (op : TwoArgKind) (y : IOperationPtr D)
  | both (x : IOperationPtr D) (lo : TwoArgKind) (y : IOperationPtr D) (hi : TwoArgKind)
      (z : IOperationPtr D)

/-- The stack of a shape (top first). -/
def Shape.stack : Shape D → OperationsStack D
  | .one x => [x]
  | .pending x op y => [y, opNode op, x]
  | .both x lo y hi z => [z, opNode hi, y, opNode lo, x]

/-- The value of `prevOperation` that goes with a shape. -/
def Shape.prev : Shape D → Option (IOperationPtr D)
  | .one _ => none
  | .pending _ op _ => some (opNode op)
  | .both _ _ _ hi _ => some (opNode hi)

/-- The two operators of `both` have priorities 0 and 1. -/
def Shape.Ordered : Shape D → Prop
  | .both _ lo _ hi _ => lo.getPriority = 0 ∧ hi.getPriority = 1
  | _ => True

/-- The reading state of the reference parse that a shape stands for. -/
def Shape.abs : Shape D → RefState D
  | .one x => ⟨none, x⟩
  | .pending x op y => if op.bindsTighter then ⟨none, .TwoArgOp op x y⟩ else ⟨some (x, op), y⟩
  | .both x lo y hi z => ⟨some (x, lo), .TwoArgOp hi y z⟩

/-- The shape left by the collapse that precedes the push of operator `op`. -/
def Shape.reduce (op : TwoArgKind) : Shape D → Shape D
  | .one x => .one x
  | .pending x p y =>
    if p.getPriority ≥ op.getPriority then .one (.TwoArgOp p x y) else .pending x p y
  | .both x lo y hi z =>
    if op.getPriority = 1 then .pending x lo (.TwoArgOp hi y z)
    else .one (.TwoArgOp lo x (.TwoArgOp hi y z))

/-- The shape after operator `op` and operand `t` have been pushed. -/
def Shape.next (op : TwoArgKind) (t : IOperationPtr D) (sh : Shape D) : Shape D :=
  match sh.reduce op with
  | .one x => .pending x op t
  | .pending x p y => .both x p y op t
  | .both x lo y hi z => .both x lo y hi z

/-- The shape of the stack after the tokens of a well-formed expression. -/
def WExpr.shape : WExpr D → Shape D
  | .num v => .one (.GetValueOp v)
  | .paren e => .one e.refParse
  | .opNum e op v => e.shape.next op (.GetValueOp v)
  | .opParen e op g => e.shape.next op g.refParse

/-- The well-formed expression `1 + 1 + ... + 1` with `n` additions. -/
def onesSum : Nat → WExpr Frac
  | 0 => .num ⟨1, 1⟩
  | n + 1 => .opNum (onesSum n) .AddOp ⟨1, 1⟩

/-- The fields of the line that spells `onesSum n`. -/
def onesSumFields : Nat → List (List Char)
  | 0 => [['1']]
  | n + 1 => onesSumFields n ++ [['+'], ['1']]

/-- The well-formed chain `x0 op1 x1 ... opn xn` of numbers. -/
def chainExpr (x0 : D) (rest : List (TwoArgKind × D)) : WExpr D :=
  rest.foldl (fun e p => .opNum e p.1 p.2) (.num x0)

/-- The left-nested tree `opn(...op2(op1(x0, x1), x2)..., xn)`. -/
def leftNested (x0 : D) (rest : List (TwoArgKind × D)) : IOperationPtr D :=
  rest.foldl (fun t p => .TwoArgOp p.1 t (.GetValueOp p.2)) (.GetValueOp x0)

/-! ## Runs observed: the calls and reads of a build -/

/-- A binary operator node to which no argument has been attached yet. -/
def IOperationPtr.isChildlessOp : IOperationPtr D → Bool
  | .TwoArgOp _ .null .null => true
  | _ => false

/-- A stack of an odd number of nodes that alternate complete operand,
childless binary operator, complete operand, ..., complete operand. -/
def Alternating : OperationsStack D → Prop
  | [] => False
  | [x] => x.Complete
  | y :: o :: rest => y.Complete ∧ o.isChildlessOp = true ∧ Alternating rest

/-- The priorities of the childless binary operators of a stack, from the
top of the stack to its bottom. -/
def childlessPriorities : OperationsStack D → List Nat
  | [] => []
  | n :: rest =>
    if n.isChildlessOp then n.getPriority :: childlessPriorities rest
    else childlessPriorities rest

/-- The stacks with which `collapseStack` is entered during one call from
outside, the recursive calls included, in order (body on a non-empty stack). -/
def collapseFromTrace (lastOpPriority : Nat) :
    IOperationPtr D → OperationsStack D → List (OperationsStack D)
  | top, [] => [[top]]
  | top, [x] => [[top, x]]
  | rArg, op :: lArg :: rest =>
    (rArg :: op :: lArg :: rest) ::
      (if rArg.isNull || op.isNull then []
       else if !op.isTwoArgOp then []
       else if op.getPriority < lastOpPriority then []
       else if lArg.isNull then []
       else collapseFromTrace lastOpPriority (op.setArgs lArg rArg) rest)

/-- The stacks with which `collapseStack` is entered during one call from
outside, the recursive calls included, in order. -/
def collapseStackTrace (opStack : OperationsStack D) (lastOpPriority : Nat) :
    List (OperationsStack D) :=
  match opStack with
  | [] => [[]]
  | top :: below => collapseFromTrace lastOpPriority top below

/-- What can be observed of a run of `buildAST`: the loop is about to read
the token at `currPos` with the stack `opStack` of its level; `collapseStack`
is entered with a stack and a target priority; the recursive call made for the
left brace at `currPos` returned no tree; the collapse made before pushing the
operator at `currPos` returned no node. -/
inductive Event (D : Type) where
  | readToken (currPos : Nat) (opStack : OperationsStack D)
  | collapseCall (opStack : OperationsStack D) (lastOpPriority : Nat)
  | subExprFailed (currPos : Nat)
  | collapseFailed (currPos : Nat)
  deriving DecidableEq

/-- The events of one call of `collapseStack` from outside. -/
def collapseEvents (opStack : OperationsStack D) (lastOpPriority : Nat) : List (Event D) :=
  (collapseStackTrace opStack lastOpPriority).map (fun s => Event.collapseCall s lastOpPriority)

/-- The events of the run of `buildASTLoop` from a loop state, those of the
recursive calls included, in order, up to the return or the fault. -/
def buildASTLoopTrace (fp : DoubleModel D) (tkChain : TokensChain D) :
    Nat → Nat → Option (IOperationPtr D) → OperationsStack D → List (Event D)
  | 0, _, _, _ => []
  | fuel + 1, currPos, prevOperation, opStack =>
    match tkChain.get? currPos with
    | none => collapseEvents opStack 0
    | some currToken =>
      Event.readToken currPos opStack ::
      match currToken.m_type with
      | .ttNumVal =>
        buildASTLoopTrace fp tkChain fuel (currPos + 1) prevOperation
          (.GetValueOp currToken.m_val :: opStack)
      | .ttLeftBrace =>
        buildASTLoopTrace fp tkChain fuel (currPos + 1) none [] ++
          match buildASTLoop fp tkChain fuel (currPos + 1) none [] with
          | .ret sub =>
            if sub.res.isNull then [Event.subExprFailed currPos]
            else if (sub.res.calc fp).isNone then []
            else buildASTLoopTrace fp tkChain fuel (sub.currPos + 1) prevOperation
              (sub.res :: opStack)
          | .fault => []
          | .outOfFuel => []
      | .ttRightBrace => collapseEvents opStack 0
      | .ttUndefined => []
      | opType =>
        let newOp : IOperationPtr D := buildOpWithoutAgrs opType
        if newOp.isNull then []
        else
          match prevOperation with
          | some prev =>
            if prev.getPriority ≥ newOp.getPriority then
              collapseEvents opStack newOp.getPriority ++
                match collapseStack fp opStack newOp.getPriority with
                | .ret (collapseRes, st) =>
                  if collapseRes.isNull then [Event.collapseFailed currPos]
                  else buildASTLoopTrace fp tkChain fuel (currPos + 1) (some newOp) (newOp :: st)
                | .fault => []
                | .outOfFuel => []
            else buildASTLoopTrace fp tkChain fuel (currPos + 1) (some newOp) (newOp :: opStack)
          | none => buildASTLoopTrace fp tkChain fuel (currPos + 1) (some newOp) (newOp :: opStack)

/-- What the claims ask of an observed event of a well-formed build: a stack
that is read holds at most five nodes and its childless operators have
strictly increasing priority from bottom to top; a stack that is collapsed is
alternating and holds at most five nodes. -/
def GoodEvent : Event D → Prop
  | .readToken _ st => (childlessPriorities st).Pairwise (fun a b => a > b) ∧ st.length ≤ 5
  | .collapseCall st _ => Alternating st ∧ st.length ≤ 5
  | .subExprFailed _ => True
  | .collapseFailed _ => True

/-- The operands of a shape are complete trees. -/
def Shape.OperandsComplete : Shape D → Prop
  | .one x => x.Complete
  | .pending x _ y => x.Complete ∧ y.Complete
  | .both x _ y _ z => x.Complete ∧ y.Complete ∧ z.Complete

/-- Scan of a token sequence from the left at nesting depth `depth`: a left
brace opens a level, a right brace closes one, and a right brace at depth 0
ends the scan (`none`); the result is the depth at the end of the input, that
is the number of left braces still waiting for their right brace. -/
def openDepth : TokensChain D → Nat → Option Nat
  | [], depth => some depth
  | t :: ts, depth =>
    match t.m_type with
    | .ttLeftBrace => openDepth ts (depth + 1)
    | .ttRightBrace => if depth = 0 then none else openDepth ts (depth - 1)
    | _ => openDepth ts depth

/-- The events that report a failure: a recursive call that returned no
tree, or a collapse before an operator that returned no node. -/
def Event.isFailure : Event D → Bool
  | .subExprFailed _ => true
  | .collapseFailed _ => true
  | _ => false

/-- The run of the loop of `buildAST` from one loop state either faults, or
goes on as the run from a second loop state; in both cases the events up to
the fault, or up to the second state, are good. -/
def Advances (fp : DoubleModel D) (tk : TokensChain D)
    (fuel pos : Nat) (prev : Option (IOperationPtr D)) (st : OperationsStack D)
    (fuel' pos' : Nat) (prev' : Option (IOperationPtr D)) (st' : OperationsStack D) : Prop :=
  ∃ evs : List (Event D), (∀ ev ∈ evs, GoodEvent ev) ∧
    ((buildASTLoop fp tk fuel pos prev st = .fault ∧
        buildASTLoopTrace fp tk fuel pos prev st = evs) ∨
     (buildASTLoop fp tk fuel pos prev st = buildASTLoop fp tk fuel' pos' prev' st' ∧
        buildASTLoopTrace fp tk fuel pos prev st =
          evs ++ buildASTLoopTrace fp tk fuel' pos' prev' st'))

/-! # Theorems -/

/-! ## The tokenizer: failures -/

theorem getlineFields_leading_space (rest : List Char) :
    getlineFields (' ' :: rest) = [] :: getlineFields rest := by
  simp [getlineFields]

theorem getlineFields_double_space (pre post : List Char) :
    ∃ f fs, getlineFields (pre ++ ' ' :: ' ' :: post) = f :: fs ∧ [] ∈ fs := by
  induction pre with
  | nil => exact ⟨[], [] :: getlineFields post, by simp [getlineFields], by simp⟩
  | cons c pre ih =>
    obtain ⟨f, fs, hf, hmem⟩ := ih
    by_cases hc : c = ' '
    · refine ⟨[], f :: fs, ?_, List.mem_cons_of_mem _ hmem⟩
      simp [getlineFields, hc, hf]
    · refine ⟨c :: f, fs, ?_, hmem⟩
      simp [getlineFields, hc, hf]

/-- The tokenizer loop either ends with `result` cleared, or has counted
every brace field. -/
theorem parseLoop_cases (fp : DoubleModel D) (fields : List (List Char)) (st : ParseState D) :
    (parseLoop fp fields st).result = [] ∨
      ((parseLoop fp fields st).nOpeningBraces = st.nOpeningBraces + fields.count ['('] ∧
       (parseLoop fp fields st).nClosingBraces = st.nClosingBraces + fields.count [')']) := by
  induction fields generalizing st with
  | nil => right; simp [parseLoop]
  | cons opStr rest ih =>
    unfold parseLoop
    split_ifs with h1 h2 h3 h4 h5 h6 h7
    · subst h1
      rcases ih { st with result := st.result ++ [⟨.ttAdd, fp.zero⟩] } with h | h
      · exact Or.inl h
      · right; simpa using h
    · subst h2
      rcases ih { st with result := st.result ++ [⟨.ttSub, fp.zero⟩] } with h | h
      · exact Or.inl h
      · right; simpa using h
    · subst h3
      rcases ih { st with result := st.result ++ [⟨.ttMul, fp.zero⟩] } with h | h
      · exact Or.inl h
      · right; simpa using h
    · subst h4
      rcases ih { st with result := st.result ++ [⟨.ttDiv, fp.zero⟩] } with h | h
      · exact Or.inl h
      · right; simpa using h
    · subst h5
      rcases ih { st with result := st.result ++ [⟨.ttRem, fp.zero⟩] } with h | h
      · exact Or.inl h
      · right; simpa using h
    · subst h6
      rcases ih { st with result := st.result ++ [⟨.ttLeftBrace, fp.zero⟩],
                          nOpeningBraces := st.nOpeningBraces + 1 } with h | h
      · exact Or.inl h
      · right
        constructor
        · rw [h.1]; simp [List.count_cons]; omega
        · rw [h.2]; simp [List.count_cons]
    · subst h7
      rcases ih { st with result := st.result ++ [⟨.ttRightBrace, fp.zero⟩],
                          nClosingBraces := st.nClosingBraces + 1 } with h | h
      · exact Or.inl h
      · right
        constructor
        · rw [h.1]; simp [List.count_cons]
        · rw [h.2]; simp [List.count_cons]; omega
    · cases hs : fp.stod opStr with
      | none => left; simp
      | some p =>
        obtain ⟨val, dParsePos⟩ := p
        by_cases hp : dParsePos = opStr.length
        · simp only [hp, ne_eq, not_true_eq_false, ↓reduceIte]
          rcases ih { st with result := st.result ++ [⟨.ttNumVal, val⟩] } with h | h
          · exact Or.inl h
          · right
            simpa [List.count_cons, h6, h7] using h
        · left; simp [hp]

/-- A field that is neither a symbol nor a fully parsed number clears the
result of the tokenizer loop. -/
theorem parseLoop_bad_field (fp : DoubleModel D) (fields : List (List Char)) (st : ParseState D)
    (f : List Char) (hf : f ∈ fields) (hsym : f ∉ symbolFields) (hnum : ¬ FullyParsed fp f) :
    (parseLoop fp fields st).result = [] := by
  induction fields generalizing st with
  | nil => simp at hf
  | cons opStr rest ih =>
    unfold parseLoop
    rcases List.mem_cons.1 hf with hhead | htail
    · subst hhead
      have hs : f ≠ ['+'] ∧ f ≠ ['-'] ∧ f ≠ ['*'] ∧ f ≠ ['/'] ∧ f ≠ ['%'] ∧ f ≠ ['('] ∧
          f ≠ [')'] := by
        simpa [symbolFields] using hsym
      obtain ⟨h1, h2, h3, h4, h5, h6, h7⟩ := hs
      simp only [h1, h2, h3, h4, h5, h6, h7, ↓reduceIte]
      cases hst : fp.stod f with
      | none => simp
      | some p =>
        obtain ⟨val, dParsePos⟩ := p
        by_cases hp : dParsePos = f.length
        · exact absurd ⟨val, by rw [hst, hp]⟩ hnum
        · simp [hp]
    · split_ifs
      all_goals first
        | exact ih _ htail
        | (split
           · rfl
           · split_ifs
             · rfl
             · exact ih _ htail)

theorem buildExpression_of_parse_nil (fp : DoubleModel D) (line : List Char)
    (h : parseFormula fp line = []) : buildExpression fp line = .ret .null := by
  simp [buildExpression, h]

theorem parseFormula_bad_field (fp : DoubleModel D) (line : List Char) (f : List Char)
    (hf : f ∈ getlineFields line) (hsym : f ∉ symbolFields) (hnum : ¬ FullyParsed fp f) :
    parseFormula fp line = [] := by
  have h := parseLoop_bad_field fp (getlineFields line) ⟨[], 0, 0⟩ f hf hsym hnum
  by_cases hlen : line.length > 1024 * 1024 * 1024
  · simp [parseFormula, hlen]
  · simp [parseFormula, hlen, h]

theorem empty_field_bad (fp : DoubleModel D) :
    ([] : List Char) ∉ symbolFields ∧ ¬ FullyParsed fp [] := by
  refine ⟨by decide, ?_⟩
  rintro ⟨v, hv⟩
  rw [fp.stod_nil] at hv
  exact Option.noConfusion hv

/-! ## What the builder returns -/

theorem calc_isSome_complete (fp : DoubleModel D) (t : IOperationPtr D)
    (h : (t.calc fp).isSome) : t.Complete := by
  induction t with
  | null => simp [IOperationPtr.calc] at h
  | GetValueOp v => trivial
  | TwoArgOp k l r ihl ihr =>
    simp only [IOperationPtr.calc] at h
    cases hl : l.calc fp <;> cases hr : r.calc fp <;> simp [hl, hr] at h
    exact ⟨ihl (by simp [hl]), ihr (by simp [hr])⟩

theorem collapseFrom_zero_ret (fp : DoubleModel D) (top : IOperationPtr D)
    (below : OperationsStack D) (res : IOperationPtr D) (st : OperationsStack D)
    (h : collapseFrom fp 0 top below = .ret (res, st)) (hres : res.isNull = false) :
    (res.calc fp).isSome ∧ st = [res] := by
  induction top, below using collapseFrom.induct fp 0 with
  | case1 top hc => simp [collapseFrom, hc] at h
  | case2 top hc =>
    simp only [collapseFrom, hc] at h
    simp only [Bool.false_eq_true, ↓reduceIte, Outcome.ret.injEq, Prod.mk.injEq] at h
    obtain ⟨rfl, rfl⟩ := h
    simpa [Option.isSome_iff_ne_none] using hc
  | case3 top x =>
    simp only [collapseFrom, Outcome.ret.injEq, Prod.mk.injEq] at h
    rw [← h.1] at hres
    simp [IOperationPtr.isNull] at hres
  | case4 rArg op lArg rest hn =>
    simp only [collapseFrom, hn, ↓reduceIte, Outcome.ret.injEq, Prod.mk.injEq] at h
    rw [← h.1] at hres
    simp [IOperationPtr.isNull] at hres
  | case5 rArg op lArg rest hn ht => simp [collapseFrom, hn, ht] at h
  | case6 rArg op lArg rest hn ht hp hc => exact absurd hp (Nat.not_lt_zero _)
  | case7 rArg op lArg rest hn ht hp hc => exact absurd hp (Nat.not_lt_zero _)
  | case8 rArg op lArg rest hn ht hp hl => simp [collapseFrom, hn, ht, hl] at h
  | case9 rArg op lArg rest hn ht hp hl ih =>
    apply ih
    simpa [collapseFrom, hn, ht, hl] using h

theorem collapseStack_zero_ret (fp : DoubleModel D) (opStack : OperationsStack D)
    (res : IOperationPtr D) (st : OperationsStack D)
    (h : collapseStack fp opStack 0 = .ret (res, st)) (hres : res.isNull = false) :
    (res.calc fp).isSome ∧ st = [res] := by
  cases opStack with
  | nil =>
    simp only [collapseStack, Outcome.ret.injEq, Prod.mk.injEq] at h
    rw [← h.1] at hres
    simp [IOperationPtr.isNull] at hres
  | cons top below => exact collapseFrom_zero_ret fp top below res st h hres

theorem buildASTFinish_ret (fp : DoubleModel D) (pos : Nat) (opStack : OperationsStack D)
    (r : BuildResult D) (h : buildASTFinish fp pos opStack = .ret r) (hres : r.res.isNull = false) :
    (r.res.calc fp).isSome ∧ r.opStack = [r.res] := by
  unfold buildASTFinish at h
  split at h
  · rename_i exprResult st hc
    simp only [Outcome.ret.injEq] at h
    subst h
    exact collapseStack_zero_ret fp opStack exprResult st hc hres
  · exact Outcome.noConfusion h
  · exact Outcome.noConfusion h

/-- Whatever non-null pointer `buildAST` returns was produced by its final
collapse: its evaluation is defined and it is the only node left on the stack. -/
theorem buildASTLoop_ret (fp : DoubleModel D) (tk : TokensChain D) (fuel pos : Nat)
    (prev : Option (IOperationPtr D)) (opStack : OperationsStack D) (r : BuildResult D)
    (h : buildASTLoop fp tk fuel pos prev opStack = .ret r) (hres : r.res.isNull = false) :
    (r.res.calc fp).isSome ∧ r.opStack = [r.res] := by
  induction fuel generalizing pos prev opStack r with
  | zero => simp [buildASTLoop] at h
  | succ fuel ih =>
    unfold buildASTLoop at h
    split at h
    · exact buildASTFinish_ret fp _ _ r h hres
    · split at h
      · exact ih _ _ _ r h hres
      · split at h
        · split_ifs at h
          · simp only [Outcome.ret.injEq] at h
            subst h
            simp [IOperationPtr.isNull] at hres
          · exact ih _ _ _ r h hres
        · exact Outcome.noConfusion h
        · exact Outcome.noConfusion h
      · exact buildASTFinish_ret fp _ _ r h hres
      · simp only [Outcome.ret.injEq] at h
        subst h
        simp [IOperationPtr.isNull] at hres
      · simp only at h
        split_ifs at h
        split at h
        · split_ifs at h
          · split at h
            · split_ifs at h
              · simp only [Outcome.ret.injEq] at h
                subst h
                simp [IOperationPtr.isNull] at hres
              · exact ih _ _ _ r h hres
            · exact Outcome.noConfusion h
            · exact Outcome.noConfusion h
          · exact ih _ _ _ r h hres
        · exact ih _ _ _ r h hres

/-- C2. Whenever `buildExpression` returns a tree, every operator node
reachable in it has both arguments attached, and evaluating the tree is
defined. -/
theorem returned_tree_is_complete (fp : DoubleModel D) (line : List Char) (t : IOperationPtr D)
    (h : ReturnsTree (buildExpression fp line) t) : t.Complete ∧ (t.calc fp).isSome := by
  obtain ⟨hret, hnull⟩ := h
  unfold buildExpression at hret
  simp only at hret
  split_ifs at hret with hempty
  · simp only [Outcome.ret.injEq] at hret
    subst hret
    simp [IOperationPtr.isNull] at hnull
  · split at hret
    · rename_i r hr
      split_ifs at hret with hok
      · simp only [Outcome.ret.injEq] at hret
        subst hret
        have hc := (buildASTLoop_ret fp _ _ _ _ _ r hr hnull).1
        exact ⟨calc_isSome_complete fp _ hc, hc⟩
      · simp only [Outcome.ret.injEq] at hret
        subst hret
        simp [IOperationPtr.isNull] at hnull
    · exact Outcome.noConfusion hret
    · exact Outcome.noConfusion hret

theorem returned_tree_is_complete_witness :
    ReturnsTree (buildExpression exactModel "( 2 + 3 ) * 4".toList)
        (.TwoArgOp .MulOp (.TwoArgOp .AddOp (.GetValueOp ⟨2, 1⟩) (.GetValueOp ⟨3, 1⟩))
          (.GetValueOp ⟨4, 1⟩)) ∧
      (IOperationPtr.TwoArgOp .MulOp
          (.TwoArgOp .AddOp (.GetValueOp ⟨2, 1⟩) (.GetValueOp ⟨3, 1⟩))
          (.GetValueOp (⟨4, 1⟩ : Frac))).Complete ∧
      ((IOperationPtr.TwoArgOp .MulOp
          (.TwoArgOp .AddOp (.GetValueOp ⟨2, 1⟩) (.GetValueOp ⟨3, 1⟩))
          (.GetValueOp (⟨4, 1⟩ : Frac))).calc exactModel).isSome :=
  ⟨⟨by decide, by decide⟩,
   returned_tree_is_complete exactModel "( 2 + 3 ) * 4".toList _ ⟨by decide, by decide⟩⟩

/-- C3. On the line `1 ) (` the tokenizer yields three tokens, the outermost
`buildAST` stops with its cursor at position 1, and `buildExpression` still
returns the tree of the number 1: two tokens are never read. -/
theorem unread_tokens_after_right_brace :
    (parseFormula exactModel "1 ) (".toList).length = 3 ∧
      buildAST exactModel 4 (parseFormula exactModel "1 ) (".toList) 0 [] =
        .ret ⟨.GetValueOp ⟨1, 1⟩, 1, [.GetValueOp ⟨1, 1⟩]⟩ ∧
      buildExpression exactModel "1 ) (".toList = .ret (.GetValueOp ⟨1, 1⟩) := by
  decide

/-- C8. A line with a field that is neither one of the seven symbols nor a
number consumed in full, in particular a line with an empty field (a leading
space, or two consecutive spaces), makes `parseFormula` return the empty
sequence and `buildExpression` return no tree. -/
theorem malformed_field_rejected (fp : DoubleModel D) (line : List Char)
    (h : (∃ f ∈ getlineFields line, f ∉ symbolFields ∧ ¬ FullyParsed fp f) ∨
         (∃ rest, line = ' ' :: rest) ∨
         (∃ pre post, line = pre ++ ' ' :: ' ' :: post)) :
    parseFormula fp line = [] ∧ buildExpression fp line = .ret .null := by
  have hbad : ∃ f ∈ getlineFields line, f ∉ symbolFields ∧ ¬ FullyParsed fp f := by
    rcases h with h | ⟨rest, rfl⟩ | ⟨pre, post, rfl⟩
    · exact h
    · exact ⟨[], by simp [getlineFields_leading_space], empty_field_bad fp⟩
    · obtain ⟨f, fs, hf, hmem⟩ := getlineFields_double_space pre post
      exact ⟨[], by rw [hf]; exact List.mem_cons_of_mem _ hmem, empty_field_bad fp⟩
  obtain ⟨f, hf, hsym, hnum⟩ := hbad
  have hp := parseFormula_bad_field fp line f hf hsym hnum
  exact ⟨hp, buildExpression_of_parse_nil fp line hp⟩

theorem malformed_field_rejected_witness :
    (∃ f ∈ getlineFields "1.2.3 + 1".toList, f ∉ symbolFields ∧ ¬ FullyParsed exactModel f) ∧
      parseFormula exactModel "1.2.3 + 1".toList = [] ∧
      buildExpression exactModel "1.2.3 + 1".toList = .ret .null :=
  have hbad : ∃ f ∈ getlineFields "1.2.3 + 1".toList,
      f ∉ symbolFields ∧ ¬ FullyParsed exactModel f :=
    ⟨"1.2.3".toList, by decide, by decide, by
      rintro ⟨v, hv⟩
      have he : exactModel.stod "1.2.3".toList = some (⟨6, 5⟩, 3) := by decide
      rw [he] at hv
      simp at hv⟩
  ⟨hbad, malformed_field_rejected exactModel "1.2.3 + 1".toList (Or.inl hbad)⟩

/-- C9. A line whose fields `(` and `)` differ in number makes `parseFormula`
return the empty sequence, whatever the other fields are, and
`buildExpression` return no tree. -/
theorem brace_mismatch_rejected (fp : DoubleModel D) (line : List Char)
    (h : (getlineFields line).count ['('] ≠ (getlineFields line).count [')']) :
    parseFormula fp line = [] ∧ buildExpression fp line = .ret .null := by
  have hp : parseFormula fp line = [] := by
    by_cases hlen : line.length > 1024 * 1024 * 1024
    · simp [parseFormula, hlen]
    · rcases parseLoop_cases fp (getlineFields line) ⟨[], 0, 0⟩ with hr | ⟨ho, hc⟩
      · simp [parseFormula, hlen, hr]
      · have hne : (parseLoop fp (getlineFields line) ⟨[], 0, 0⟩).nOpeningBraces ≠
            (parseLoop fp (getlineFields line) ⟨[], 0, 0⟩).nClosingBraces := by
          rw [ho, hc]; simpa using h
        simp [parseFormula, hlen, hne]
  exact ⟨hp, buildExpression_of_parse_nil fp line hp⟩

theorem brace_mismatch_rejected_witness :
    ((getlineFields "( 1 + 2".toList).count ['('] ≠ (getlineFields "( 1 + 2".toList).count [')'] ∧
      parseFormula exactModel "( 1 + 2".toList = [] ∧
      buildExpression exactModel "( 1 + 2".toList = .ret .null) ∧
    ((getlineFields "1 + 2 )".toList).count ['('] ≠ (getlineFields "1 + 2 )".toList).count [')'] ∧
      parseFormula exactModel "1 + 2 )".toList = [] ∧
      buildExpression exactModel "1 + 2 )".toList = .ret .null) :=
  ⟨⟨by decide, brace_mismatch_rejected exactModel "( 1 + 2".toList (by decide)⟩,
   ⟨by decide, brace_mismatch_rejected exactModel "1 + 2 )".toList (by decide)⟩⟩

/-! ## The builder on well-formed expressions -/

theorem get?_append_cons {α : Type} (a : List α) (x : α) (b : List α) :
    (a ++ x :: b).get? a.length = some x := by
  induction a with
  | nil => rfl
  | cons y a ih => simpa using ih

theorem get?_append_nil {α : Type} (a : List α) :
    (a ++ []).get? a.length = none := by
  simp

theorem step_num (fp : DoubleModel D) (tk : TokensChain D) (n pos : Nat) (v : D)
    (prev : Option (IOperationPtr D)) (st : OperationsStack D)
    (h : tk.get? pos = some ⟨.ttNumVal, v⟩) :
    buildASTLoop fp tk (n + 1) pos prev st =
      buildASTLoop fp tk n (pos + 1) prev (.GetValueOp v :: st) := by
  rw [buildASTLoop, h]

theorem step_end (fp : DoubleModel D) (tk : TokensChain D) (n pos : Nat)
    (prev : Option (IOperationPtr D)) (st : OperationsStack D)
    (h : tk.get? pos = none) :
    buildASTLoop fp tk (n + 1) pos prev st = buildASTFinish fp pos st := by
  rw [buildASTLoop, h]

theorem step_rbrace (fp : DoubleModel D) (tk : TokensChain D) (n pos : Nat) (x : D)
    (prev : Option (IOperationPtr D)) (st : OperationsStack D)
    (h : tk.get? pos = some ⟨.ttRightBrace, x⟩) :
    buildASTLoop fp tk (n + 1) pos prev st = buildASTFinish fp pos st := by
  rw [buildASTLoop, h]

theorem step_lbrace (fp : DoubleModel D) (tk : TokensChain D) (n pos : Nat) (x : D)
    (prev : Option (IOperationPtr D)) (st : OperationsStack D) (sub : BuildResult D)
    (h : tk.get? pos = some ⟨.ttLeftBrace, x⟩)
    (hsub : buildASTLoop fp tk n (pos + 1) none [] = .ret sub)
    (hnn : sub.res.isNull = false) (hdef : (sub.res.calc fp).isSome) :
    buildASTLoop fp tk (n + 1) pos prev st =
      buildASTLoop fp tk n (sub.currPos + 1) prev (sub.res :: st) := by
  rw [buildASTLoop, h]
  simp only [hsub, hnn]
  have : (sub.res.calc fp).isNone = false := by
    cases hc : sub.res.calc fp <;> simp_all
  simp [this]

theorem isNull_twoArgOp (k : TwoArgKind) (l r : IOperationPtr D) :
    (IOperationPtr.TwoArgOp k l r).isNull = false := rfl

theorem isNull_getValueOp (v : D) : (IOperationPtr.GetValueOp v).isNull = false := rfl

theorem getPriority_twoArgOp (k : TwoArgKind) (l r : IOperationPtr D) :
    (IOperationPtr.TwoArgOp k l r).getPriority = k.getPriority := rfl

theorem step_op_push (fp : DoubleModel D) (tk : TokensChain D) (n pos : Nat) (op : TwoArgKind)
    (prev : Option (IOperationPtr D)) (st : OperationsStack D)
    (h : tk.get? pos = some (opToken fp op))
    (hprev : ∀ p, prev = some p → p.getPriority < op.getPriority) :
    buildASTLoop fp tk (n + 1) pos prev st =
      buildASTLoop fp tk n (pos + 1) (some (opNode op)) (opNode op :: st) := by
  rw [buildASTLoop, h]
  cases prev with
  | none => cases op <;> rfl
  | some p =>
    have hp := Nat.not_le.2 (hprev p rfl)
    cases op <;>
      simp only [opToken, buildOpWithoutAgrs, isNull_twoArgOp, opNode, getPriority_twoArgOp,
        ge_iff_le, hp, Bool.false_eq_true, ↓reduceIte]

theorem step_op_collapse (fp : DoubleModel D) (tk : TokensChain D) (n pos : Nat)
    (op : TwoArgKind) (p : IOperationPtr D) (st st' : OperationsStack D) (res : IOperationPtr D)
    (h : tk.get? pos = some (opToken fp op))
    (hprev : p.getPriority ≥ op.getPriority)
    (hcol : collapseStack fp st op.getPriority = .ret (res, st'))
    (hnn : res.isNull = false) :
    buildASTLoop fp tk (n + 1) pos (some p) st =
      buildASTLoop fp tk n (pos + 1) (some (opNode op)) (opNode op :: st') := by
  rw [buildASTLoop, h]
  cases op <;>
    simp only [opToken, buildOpWithoutAgrs, isNull_twoArgOp, opNode, getPriority_twoArgOp,
      ge_iff_le, hprev, hcol, hnn, Bool.false_eq_true, ↓reduceIte]


/-! ### Priorities and evaluation -/

theorem getPriority_le_one (op : TwoArgKind) : op.getPriority ≤ 1 := by
  cases op <;> simp [TwoArgKind.getPriority]

theorem bindsTighter_iff (op : TwoArgKind) : op.bindsTighter = true ↔ op.getPriority = 1 := by
  cases op <;> simp [TwoArgKind.getPriority, TwoArgKind.bindsTighter]

theorem not_bindsTighter_iff (op : TwoArgKind) :
    op.bindsTighter = false ↔ op.getPriority = 0 := by
  cases op <;> simp [TwoArgKind.getPriority, TwoArgKind.bindsTighter]

theorem isNull_of_calc (fp : DoubleModel D) (t : IOperationPtr D) (h : (t.calc fp).isSome) :
    t.isNull = false := by
  cases t with
  | null => simp [IOperationPtr.calc] at h
  | GetValueOp v => rfl
  | TwoArgOp k l r => rfl

theorem isNone_of_calc (fp : DoubleModel D) (t : IOperationPtr D) (h : (t.calc fp).isSome) :
    (t.calc fp).isNone = false := by
  cases hc : t.calc fp with
  | none => simp [hc] at h
  | some v => rfl

theorem calc_args (fp : DoubleModel D) (k : TwoArgKind) (l r : IOperationPtr D)
    (h : ((IOperationPtr.TwoArgOp k l r).calc fp).isSome) :
    (l.calc fp).isSome ∧ (r.calc fp).isSome := by
  simp only [IOperationPtr.calc] at h
  cases hl : l.calc fp <;> cases hr : r.calc fp <;> simp [hl, hr] at h
  simp

theorem calc_low (fp : DoubleModel D) (k : TwoArgKind) (l r : IOperationPtr D)
    (hk : k.getPriority = 0) (hl : (l.calc fp).isSome) (hr : (r.calc fp).isSome) :
    ((IOperationPtr.TwoArgOp k l r).calc fp).isSome := by
  obtain ⟨x, hx⟩ := Option.isSome_iff_exists.1 hl
  obtain ⟨y, hy⟩ := Option.isSome_iff_exists.1 hr
  cases k <;> simp [TwoArgKind.getPriority] at hk <;>
    simp [IOperationPtr.calc, hx, hy, TwoArgKind.apply]

/-! ### Collapsing a stack of a known shape -/

theorem collapseFrom_single (fp : DoubleModel D) (prio : Nat) (x : IOperationPtr D)
    (hx : (x.calc fp).isSome) : collapseFrom fp prio x [] = .ret (x, [x]) := by
  simp [collapseFrom, isNone_of_calc fp x hx]

theorem collapseFrom_merge (fp : DoubleModel D) (prio : Nat) (x y : IOperationPtr D)
    (op : TwoArgKind) (rest : OperationsStack D)
    (hx : x.isNull = false) (hy : y.isNull = false) (hp : prio ≤ op.getPriority) :
    collapseFrom fp prio y (opNode op :: x :: rest) =
      collapseFrom fp prio (.TwoArgOp op x y) rest := by
  rw [collapseFrom]
  simp [hx, hy, opNode, isNull_twoArgOp, IOperationPtr.isTwoArgOp, getPriority_twoArgOp,
    Nat.not_lt.2 hp, IOperationPtr.setArgs]

theorem collapseFrom_blocked (fp : DoubleModel D) (prio : Nat) (x y : IOperationPtr D)
    (op : TwoArgKind) (rest : OperationsStack D)
    (hy : (y.calc fp).isSome) (hp : op.getPriority < prio) :
    collapseFrom fp prio y (opNode op :: x :: rest) =
      .ret (y, y :: opNode op :: x :: rest) := by
  rw [collapseFrom]
  simp [isNull_of_calc fp y hy, isNone_of_calc fp y hy, opNode, isNull_twoArgOp,
    IOperationPtr.isTwoArgOp, getPriority_twoArgOp, hp]

/-- The final collapse of a level turns a stack of a known shape into the
tree of the reference parse. -/
theorem collapse_shape_final (fp : DoubleModel D) (sh : Shape D)
    (hdef : (sh.abs.close.calc fp).isSome) :
    collapseStack fp sh.stack 0 = .ret (sh.abs.close, [sh.abs.close]) := by
  cases sh with
  | one x => exact collapseFrom_single fp 0 x hdef
  | pending x op y =>
    have hc : (Shape.pending x op y).abs.close = .TwoArgOp op x y := by
      simp only [Shape.abs]; split_ifs <;> rfl
    rw [hc] at hdef ⊢
    obtain ⟨hx, hy⟩ := calc_args fp op x y hdef
    simp only [Shape.stack, collapseStack]
    rw [collapseFrom_merge fp 0 x y op [] (isNull_of_calc fp x hx) (isNull_of_calc fp y hy)
      (Nat.zero_le _)]
    exact collapseFrom_single fp 0 _ hdef
  | both x lo y hi z =>
    have hc : (Shape.both x lo y hi z).abs.close = .TwoArgOp lo x (.TwoArgOp hi y z) := rfl
    rw [hc] at hdef ⊢
    obtain ⟨hx, hyz⟩ := calc_args fp lo x _ hdef
    obtain ⟨hy, hz⟩ := calc_args fp hi y z hyz
    simp only [Shape.stack, collapseStack]
    rw [collapseFrom_merge fp 0 y z hi _ (isNull_of_calc fp y hy) (isNull_of_calc fp z hz)
      (Nat.zero_le _)]
    rw [collapseFrom_merge fp 0 x _ lo [] (isNull_of_calc fp x hx) (isNull_of_calc fp _ hyz)
      (Nat.zero_le _)]
    exact collapseFrom_single fp 0 _ hdef

/-- The collapse that precedes the push of an operator, on a stack of a known
shape whose last operator has at least the priority of the new one. -/
theorem collapse_shape_reduce (fp : DoubleModel D) (sh : Shape D) (op : TwoArgKind)
    (p : IOperationPtr D) (hord : sh.Ordered) (hdef : (sh.abs.close.calc fp).isSome)
    (hprev : sh.prev = some p) (hge : p.getPriority ≥ op.getPriority) :
    ∃ res, res.isNull = false ∧
      collapseStack fp sh.stack op.getPriority = .ret (res, (sh.reduce op).stack) := by
  cases sh with
  | one x => simp [Shape.prev] at hprev
  | pending x q y =>
    simp only [Shape.prev, Option.some.injEq] at hprev
    subst hprev
    have hge' : q.getPriority ≥ op.getPriority := hge
    have hc : (Shape.pending x q y).abs.close = .TwoArgOp q x y := by
      simp only [Shape.abs]; split_ifs <;> rfl
    rw [hc] at hdef
    obtain ⟨hx, hy⟩ := calc_args fp q x y hdef
    refine ⟨.TwoArgOp q x y, rfl, ?_⟩
    simp only [Shape.stack, collapseStack, Shape.reduce, hge', ↓reduceIte]
    rw [collapseFrom_merge fp _ x y q [] (isNull_of_calc fp x hx) (isNull_of_calc fp y hy) hge']
    exact collapseFrom_single fp _ _ hdef
  | both x lo y hi z =>
    obtain ⟨hlo, hhi⟩ := hord
    have hc : (Shape.both x lo y hi z).abs.close = .TwoArgOp lo x (.TwoArgOp hi y z) := rfl
    rw [hc] at hdef
    obtain ⟨hx, hyz⟩ := calc_args fp lo x _ hdef
    obtain ⟨hy, hz⟩ := calc_args fp hi y z hyz
    have hle := getPriority_le_one op
    simp only [Shape.stack, collapseStack, Shape.reduce]
    rw [collapseFrom_merge fp _ y z hi _ (isNull_of_calc fp y hy) (isNull_of_calc fp z hz)
      (by omega)]
    by_cases h1 : op.getPriority = 1
    · refine ⟨.TwoArgOp hi y z, rfl, ?_⟩
      simp only [h1, ↓reduceIte, Shape.stack]
      exact collapseFrom_blocked fp 1 x _ lo [] hyz (by omega)
    · refine ⟨.TwoArgOp lo x (.TwoArgOp hi y z), rfl, ?_⟩
      simp only [h1, ↓reduceIte, Shape.stack]
      rw [collapseFrom_merge fp _ x _ lo [] (isNull_of_calc fp x hx) (isNull_of_calc fp _ hyz)
        (by omega)]
      exact collapseFrom_single fp _ _ hdef

theorem next_stack (sh : Shape D) (op : TwoArgKind) (t : IOperationPtr D) :
    (sh.next op t).stack = t :: opNode op :: (sh.reduce op).stack ∧
      (sh.next op t).prev = some (opNode op) := by
  cases sh with
  | one x => exact ⟨rfl, rfl⟩
  | pending x p y =>
    simp only [Shape.next, Shape.reduce]
    split_ifs <;> exact ⟨rfl, rfl⟩
  | both x lo y hi z =>
    simp only [Shape.next, Shape.reduce]
    split_ifs <;> exact ⟨rfl, rfl⟩

theorem next_ordered (sh : Shape D) (op : TwoArgKind) (t : IOperationPtr D)
    (hord : sh.Ordered) : (sh.next op t).Ordered := by
  have hle := getPriority_le_one op
  cases sh with
  | one x => trivial
  | pending x p y =>
    simp only [Shape.next, Shape.reduce]
    split_ifs with h
    · trivial
    · exact ⟨by omega, by omega⟩
  | both x lo y hi z =>
    simp only [Shape.next, Shape.reduce]
    split_ifs with h
    · exact ⟨hord.1, h⟩
    · trivial

theorem next_abs (sh : Shape D) (op : TwoArgKind) (t : IOperationPtr D) (hord : sh.Ordered) :
    (sh.next op t).abs = sh.abs.extend op t := by
  have hle := getPriority_le_one op
  cases sh with
  | one x =>
    simp only [Shape.next, Shape.reduce, Shape.abs, RefState.extend, RefState.close]
  | pending x p y =>
    simp only [Shape.next, Shape.reduce]
    split_ifs with h
    · simp only [Shape.abs, RefState.extend]
      by_cases hp : p.bindsTighter = true
      · simp [hp, RefState.close]
      · have hp0 : p.getPriority = 0 := (not_bindsTighter_iff p).1 (by simpa using hp)
        have hop : op.bindsTighter = false := (not_bindsTighter_iff op).2 (by omega)
        simp [hp, hop, RefState.close]
    · have hp : p.bindsTighter = false := (not_bindsTighter_iff p).2 (by omega)
      have hop : op.bindsTighter = true := (bindsTighter_iff op).2 (by omega)
      simp [Shape.abs, RefState.extend, hp, hop]
  | both x lo y hi z =>
    simp only [Shape.next, Shape.reduce]
    split_ifs with h
    · have hop : op.bindsTighter = true := (bindsTighter_iff op).2 h
      simp [Shape.abs, RefState.extend, hop]
    · have hop : op.bindsTighter = false := (not_bindsTighter_iff op).2 (by omega)
      simp [Shape.abs, RefState.extend, hop, RefState.close]

theorem shape_ordered (e : WExpr D) : e.shape.Ordered := by
  induction e with
  | num v => trivial
  | paren e _ => trivial
  | opNum e op v ih => exact next_ordered _ _ _ ih
  | opParen e op g ih _ => exact next_ordered _ _ _ ih

theorem shape_abs (e : WExpr D) : e.shape.abs = e.refState := by
  induction e with
  | num v => rfl
  | paren e _ => rfl
  | opNum e op v ih =>
    simp only [WExpr.shape, WExpr.refState]
    rw [next_abs _ _ _ (shape_ordered e), ih]
  | opParen e op g ih _ =>
    simp only [WExpr.shape, WExpr.refState, WExpr.refParse]
    rw [next_abs _ _ _ (shape_ordered e), ih]

/-- Evaluation of what was read after `op t` is defined only if evaluation
of what was read before, and of `t`, is. -/
theorem extend_defined (fp : DoubleModel D) (s : RefState D) (op : TwoArgKind)
    (t : IOperationPtr D) (hs : ∀ l k, s.pending = some (l, k) → k.getPriority = 0)
    (h : ((s.extend op t).close.calc fp).isSome) :
    (s.close.calc fp).isSome ∧ (t.calc fp).isSome := by
  unfold RefState.extend at h
  split_ifs at h with hop
  · cases hp : s.pending with
    | none =>
      simp only [RefState.close, hp] at h ⊢
      exact calc_args fp _ _ _ h
    | some q =>
      obtain ⟨l, k⟩ := q
      simp only [RefState.close, hp] at h ⊢
      obtain ⟨hl, hr⟩ := calc_args fp _ _ _ h
      obtain ⟨hpr, ht⟩ := calc_args fp _ _ _ hr
      exact ⟨calc_low fp k l _ (hs l k hp) hl hpr, ht⟩
  · simp only [RefState.close] at h
    exact calc_args fp _ _ _ h


theorem refState_pending_low (e : WExpr D) (l : IOperationPtr D) (k : TwoArgKind)
    (h : e.refState.pending = some (l, k)) : k.getPriority = 0 := by
  induction e generalizing l k with
  | num v => simp [WExpr.refState] at h
  | paren e _ => simp [WExpr.refState] at h
  | opNum e op v ih =>
    simp only [WExpr.refState, RefState.extend] at h
    split_ifs at h with hop
    · exact ih l k h
    · simp only [Option.some.injEq, Prod.mk.injEq] at h
      rw [← h.2]
      exact (not_bindsTighter_iff op).1 (by simpa using hop)
  | opParen e op g ih _ =>
    simp only [WExpr.refState, RefState.extend] at h
    split_ifs at h with hop
    · exact ih l k h
    · simp only [Option.some.injEq, Prod.mk.injEq] at h
      rw [← h.2]
      exact (not_bindsTighter_iff op).1 (by simpa using hop)

theorem items_le_tokens (fp : DoubleModel D) (e : WExpr D) :
    e.items ≤ (e.tokens fp).length := by
  induction e with
  | num v => simp [WExpr.items, WExpr.tokens]
  | paren e _ => simp [WExpr.items, WExpr.tokens]
  | opNum e op v ih => simp [WExpr.items, WExpr.tokens]; omega
  | opParen e op g ih _ => simp [WExpr.items, WExpr.tokens]; omega

theorem get?_mid {α : Type} (pre toks : List α) (x : α) (rest : List α) :
    (pre ++ (toks ++ x :: rest)).get? (pre.length + toks.length) = some x := by
  rw [← List.append_assoc, ← List.length_append]
  exact get?_append_cons _ _ _

theorem get?_mid_nil {α : Type} (pre toks : List α) :
    (pre ++ (toks ++ [])).get? (pre.length + toks.length) = none := by
  simp

/-- One operator token read on a stack of a known shape. -/
theorem shape_op_step (fp : DoubleModel D) (tk : TokensChain D) (n pos : Nat) (sh : Shape D)
    (op : TwoArgKind) (h : tk.get? pos = some (opToken fp op)) (hord : sh.Ordered)
    (hdef : (sh.abs.close.calc fp).isSome) :
    buildASTLoop fp tk (n + 1) pos sh.prev sh.stack =
      buildASTLoop fp tk n (pos + 1) (some (opNode op)) (opNode op :: (sh.reduce op).stack) := by
  by_cases hc : ∃ p, sh.prev = some p ∧ p.getPriority ≥ op.getPriority
  · obtain ⟨p, hp, hge⟩ := hc
    obtain ⟨res, hnn, hcol⟩ := collapse_shape_reduce fp sh op p hord hdef hp hge
    rw [hp]
    exact step_op_collapse fp tk n pos op p _ _ res h hge hcol hnn
  · have hlt : ∀ p, sh.prev = some p → p.getPriority < op.getPriority := by
      intro p hp
      by_contra hn
      exact hc ⟨p, hp, Nat.not_lt.1 hn⟩
    have hred : sh.reduce op = sh := by
      cases sh with
      | one x => rfl
      | pending x q y =>
        have := hlt (opNode q) rfl
        simp only [Shape.reduce]
        rw [if_neg]
        simpa [opNode, getPriority_twoArgOp] using this
      | both x lo y hi z =>
        have := hlt (opNode hi) rfl
        have hle := getPriority_le_one op
        simp only [opNode, getPriority_twoArgOp] at this
        have := hord.2
        omega
    rw [hred]
    exact step_op_push fp tk n pos op _ _ h hlt

/-- A run of a level up to the end of an expression gives the run to the end
of the level, when the expression is followed by a right brace or by nothing. -/
theorem full_of_level (fp : DoubleModel D) (e : WExpr D)
    (hlevel : ∀ (tk pre suf : TokensChain D) (n : Nat), tk = pre ++ (e.tokens fp ++ suf) →
      (e.tokens fp).length ≤ n + e.items → (e.refParse.calc fp).isSome →
      buildASTLoop fp tk (n + e.items) pre.length none [] =
        buildASTLoop fp tk n (pre.length + (e.tokens fp).length) e.shape.prev e.shape.stack)
    (tk pre suf : TokensChain D) (m : Nat) (htk : tk = pre ++ (e.tokens fp ++ suf))
    (hsuf : suf = [] ∨ ∃ x rest, suf = ⟨.ttRightBrace, x⟩ :: rest)
    (hm : (e.tokens fp).length + 1 ≤ m) (hdef : (e.refParse.calc fp).isSome) :
    buildASTLoop fp tk m pre.length none [] =
      .ret ⟨e.refParse, pre.length + (e.tokens fp).length, [e.refParse]⟩ := by
  have hi := items_le_tokens fp e
  obtain ⟨k, hk⟩ : ∃ k, m = (k + 1) + e.items := ⟨m - e.items - 1, by omega⟩
  rw [hk, hlevel tk pre suf (k + 1) htk (by omega) hdef]
  have hfin : buildASTFinish fp (pre.length + (e.tokens fp).length) e.shape.stack =
      .ret ⟨e.refParse, pre.length + (e.tokens fp).length, [e.refParse]⟩ := by
    have hc := collapse_shape_final fp e.shape (by rw [shape_abs]; exact hdef)
    rw [shape_abs] at hc
    simp only [buildASTFinish, hc, WExpr.refParse]
  rcases hsuf with rfl | ⟨x, rest, rfl⟩
  · rw [step_end fp tk k _ _ _ (by rw [htk]; exact get?_mid_nil _ _), hfin]
  · rw [step_rbrace fp tk k _ x _ _ (by rw [htk]; exact get?_mid _ _ _ _), hfin]

/-- The loop of `buildAST` over the tokens of a well-formed expression, from
the start of a level: it arrives behind the expression with the stack in the
shape of the expression. -/
theorem run_level (fp : DoubleModel D) (e : WExpr D) :
    ∀ (tk pre suf : TokensChain D) (n : Nat), tk = pre ++ (e.tokens fp ++ suf) →
      (e.tokens fp).length ≤ n + e.items → (e.refParse.calc fp).isSome →
      buildASTLoop fp tk (n + e.items) pre.length none [] =
        buildASTLoop fp tk n (pre.length + (e.tokens fp).length) e.shape.prev e.shape.stack := by
  induction e with
  | num v =>
    intro tk pre suf n htk _ _
    have hget : tk.get? pre.length = some ⟨.ttNumVal, v⟩ := by
      rw [htk]; exact get?_append_cons _ _ _
    exact step_num fp tk n _ v _ _ hget
  | paren g ih =>
    intro tk pre suf n htk hn hdef
    have hget : tk.get? pre.length = some ⟨.ttLeftBrace, fp.zero⟩ := by
      rw [htk]; exact get?_append_cons _ _ _
    have hsub := full_of_level fp g ih tk (pre ++ [⟨.ttLeftBrace, fp.zero⟩])
      (⟨.ttRightBrace, fp.zero⟩ :: suf) n (by simp [htk, WExpr.tokens])
      (Or.inr ⟨_, _, rfl⟩) (by simp [WExpr.tokens, WExpr.items] at hn; omega) hdef
    simp only [List.length_append, List.length_singleton] at hsub
    have hstep := step_lbrace fp tk n pre.length fp.zero none [] _ hget hsub
      (isNull_of_calc fp _ hdef) hdef
    simp only [WExpr.items, WExpr.tokens, WExpr.shape, Shape.prev, Shape.stack,
      List.length_cons, List.length_append, List.length_singleton]
    rw [hstep]
    congr 1
    simp only [List.length_nil]
    omega
  | opNum e op v ih =>
    intro tk pre suf n htk hn hdef
    have hsplit := extend_defined fp e.refState op (.GetValueOp v) (refState_pending_low e) hdef
    simp only [WExpr.tokens, WExpr.items, List.length_append, List.length_cons,
      List.length_nil] at hn
    have htk1 : tk = pre ++ (e.tokens fp ++ (opToken fp op :: ⟨.ttNumVal, v⟩ :: suf)) := by
      simp [htk, WExpr.tokens]
    have h1 := ih tk pre _ (n + 2) htk1 (by omega) hsplit.1
    have hfuel : n + (e.opNum op v).items = n + 2 + e.items := by
      simp only [WExpr.items]; omega
    rw [hfuel, h1]
    rw [shape_op_step fp tk (n + 1) _ e.shape op (by rw [htk1]; exact get?_mid _ _ _ _)
      (shape_ordered e) (by rw [shape_abs]; exact hsplit.1)]
    have hget2 : tk.get? (pre.length + (e.tokens fp).length + 1) = some ⟨.ttNumVal, v⟩ := by
      have := get?_mid pre (e.tokens fp ++ [opToken fp op]) (⟨.ttNumVal, v⟩ : RawToken D) suf
      simp only [List.length_append, List.length_singleton, List.append_assoc,
        List.singleton_append] at this
      rw [htk1, ← this]
      congr 1
    rw [step_num fp tk n _ v _ _ hget2]
    obtain ⟨hs, hp⟩ := next_stack e.shape op (.GetValueOp v)
    simp only [WExpr.shape, WExpr.tokens, hs, hp, List.length_append, List.length_cons,
      List.length_nil]
    congr 1
  | opParen e op g ih ihg =>
    intro tk pre suf n htk hn hdef
    have hsplit := extend_defined fp e.refState op g.refState.close (refState_pending_low e) hdef
    have hi := items_le_tokens fp e
    simp only [WExpr.tokens, WExpr.items, List.length_append, List.length_cons,
      List.length_nil] at hn
    have htk1 : tk = pre ++ (e.tokens fp ++ (opToken fp op :: ⟨.ttLeftBrace, fp.zero⟩ ::
        (g.tokens fp ++ ⟨.ttRightBrace, fp.zero⟩ :: suf))) := by
      simp [htk, WExpr.tokens]
    have h1 := ih tk pre _ (n + 2) htk1 (by omega) hsplit.1
    have hfuel : n + (e.opParen op g).items = n + 2 + e.items := by
      simp only [WExpr.items]; omega
    rw [hfuel, h1]
    rw [shape_op_step fp tk (n + 1) _ e.shape op (by rw [htk1]; exact get?_mid _ _ _ _)
      (shape_ordered e) (by rw [shape_abs]; exact hsplit.1)]
    have hget2 : tk.get? (pre.length + (e.tokens fp).length + 1) =
        some ⟨.ttLeftBrace, fp.zero⟩ := by
      have := get?_mid pre (e.tokens fp ++ [opToken fp op])
        (⟨.ttLeftBrace, fp.zero⟩ : RawToken D) (g.tokens fp ++ ⟨.ttRightBrace, fp.zero⟩ :: suf)
      simp only [List.length_append, List.length_singleton, List.append_assoc,
        List.singleton_append] at this
      rw [htk1, ← this]
      congr 1
    have hsub := full_of_level fp g ihg tk
      (pre ++ (e.tokens fp ++ [opToken fp op, ⟨.ttLeftBrace, fp.zero⟩]))
      (⟨.ttRightBrace, fp.zero⟩ :: suf) n (by simp [htk1])
      (Or.inr ⟨_, _, rfl⟩) (by omega) hsplit.2
    simp only [List.length_append, List.length_cons, List.length_nil] at hsub
    have hpos : pre.length + ((e.tokens fp).length + (0 + 1 + 1)) =
        pre.length + (e.tokens fp).length + 1 + 1 := by omega
    rw [hpos] at hsub
    rw [step_lbrace fp tk n _ fp.zero _ _ _ hget2 hsub (isNull_of_calc fp _ hsplit.2) hsplit.2]
    obtain ⟨hs, hp⟩ := next_stack e.shape op g.refParse
    simp only [WExpr.shape, WExpr.tokens, hs, hp, List.length_append, List.length_cons,
      List.length_nil, List.length_singleton]
    congr 1
    omega

/-! ## The tokenizer: accepted lines -/

theorem getlineFields_append_space (f rest : List Char) (hf : ' ' ∉ f) :
    getlineFields (f ++ ' ' :: rest) = f :: getlineFields rest := by
  induction f with
  | nil => exact getlineFields_leading_space rest
  | cons c f ih =>
    have hc : c ≠ ' ' := fun h => hf (by simp [h])
    have hf' : ' ' ∉ f := fun h => hf (List.mem_cons_of_mem _ h)
    simp [getlineFields, hc, ih hf']

theorem getlineFields_spacefree (f : List Char) (hne : f ≠ []) (hf : ' ' ∉ f) :
    getlineFields f = [f] := by
  induction f with
  | nil => exact absurd rfl hne
  | cons c f ih =>
    have hc : c ≠ ' ' := fun h => hf (by simp [h])
    have hf' : ' ' ∉ f := fun h => hf (List.mem_cons_of_mem _ h)
    cases f with
    | nil => simp [getlineFields, hc]
    | cons d f =>
      have hi := ih (by simp) hf'
      rw [getlineFields, if_neg hc, hi]

theorem getlineFields_joinFields (fields : List (List Char))
    (h : ∀ f ∈ fields, f ≠ [] ∧ ' ' ∉ f) : getlineFields (joinFields fields) = fields := by
  induction fields with
  | nil => rfl
  | cons f rest ih =>
    have hf := h f (List.mem_cons_self _ _)
    have hrest : ∀ g ∈ rest, g ≠ [] ∧ ' ' ∉ g := fun g hg => h g (List.mem_cons_of_mem _ hg)
    cases rest with
    | nil => exact getlineFields_spacefree f hf.1 hf.2
    | cons g rest =>
      simp only [joinFields]
      rw [getlineFields_append_space f _ hf.2, ih hrest]

/-- On fields that each stand for a token, the tokenizer loop appends those
tokens and counts the brace tokens among them. -/
theorem parseLoop_denotes (fp : DoubleModel D) (fields : List (List Char))
    (toks : TokensChain D) (h : List.Forall₂ (FieldDenotes fp) fields toks) (st : ParseState D) :
    parseLoop fp fields st =
      ⟨st.result ++ toks,
       st.nOpeningBraces + toks.countP (fun t => t.m_type = .ttLeftBrace),
       st.nClosingBraces + toks.countP (fun t => t.m_type = .ttRightBrace)⟩ := by
  induction h generalizing st with
  | nil => simp [parseLoop]
  | @cons f tok fs ts hd _ ih =>
    unfold parseLoop
    rcases hd with ⟨rfl, rfl⟩ | ⟨rfl, rfl⟩ | ⟨rfl, rfl⟩ | ⟨rfl, rfl⟩ | ⟨rfl, rfl⟩ | ⟨rfl, rfl⟩ |
      ⟨rfl, rfl⟩ | ⟨hsym, hty, hst⟩
    · simp [ih]
    · simp [ih]
    · simp [ih]
    · simp [ih]
    · simp [ih]
    · simp [ih]; omega
    · simp [ih]; omega
    · have hs : f ≠ ['+'] ∧ f ≠ ['-'] ∧ f ≠ ['*'] ∧ f ≠ ['/'] ∧ f ≠ ['%'] ∧ f ≠ ['('] ∧
          f ≠ [')'] := by
        simpa [symbolFields] using hsym
      obtain ⟨h1, h2, h3, h4, h5, h6, h7⟩ := hs
      obtain ⟨ty, val⟩ := tok
      simp only at hty hst
      subst hty
      simp [h1, h2, h3, h4, h5, h6, h7, hst, ih]

theorem denotes_count (fp : DoubleModel D) (fields : List (List Char)) (toks : TokensChain D)
    (h : List.Forall₂ (FieldDenotes fp) fields toks) :
    fields.count ['('] = toks.countP (fun t => t.m_type = .ttLeftBrace) ∧
      fields.count [')'] = toks.countP (fun t => t.m_type = .ttRightBrace) := by
  induction h with
  | nil => simp
  | @cons f tok fs ts hd _ ih =>
    rcases hd with ⟨rfl, rfl⟩ | ⟨rfl, rfl⟩ | ⟨rfl, rfl⟩ | ⟨rfl, rfl⟩ | ⟨rfl, rfl⟩ | ⟨rfl, rfl⟩ |
      ⟨rfl, rfl⟩ | ⟨hsym, hty, hst⟩
    · simpa [List.count_cons] using ih
    · simpa [List.count_cons] using ih
    · simpa [List.count_cons] using ih
    · simpa [List.count_cons] using ih
    · simpa [List.count_cons] using ih
    · simpa [List.count_cons] using ih
    · simpa [List.count_cons] using ih
    · have hs : f ≠ ['+'] ∧ f ≠ ['-'] ∧ f ≠ ['*'] ∧ f ≠ ['/'] ∧ f ≠ ['%'] ∧ f ≠ ['('] ∧
          f ≠ [')'] := by
        simpa [symbolFields] using hsym
      obtain ⟨h1, h2, h3, h4, h5, h6, h7⟩ := hs
      simpa [List.count_cons, h6, h7, hty] using ih

theorem denotes_exists (fp : DoubleModel D) (fields : List (List Char))
    (h : ∀ f ∈ fields, f ∈ symbolFields ∨ FullyParsed fp f) :
    ∃ toks, List.Forall₂ (FieldDenotes fp) fields toks := by
  induction fields with
  | nil => exact ⟨[], List.Forall₂.nil⟩
  | cons f rest ih =>
    obtain ⟨ts, hts⟩ := ih (fun g hg => h g (List.mem_cons_of_mem _ hg))
    by_cases hsym : f ∈ symbolFields
    · simp only [symbolFields, List.mem_cons, List.mem_singleton, List.not_mem_nil,
        or_false] at hsym
      rcases hsym with rfl | rfl | rfl | rfl | rfl | rfl | rfl
      · exact ⟨⟨.ttAdd, fp.zero⟩ :: ts, List.Forall₂.cons (Or.inl ⟨rfl, rfl⟩) hts⟩
      · exact ⟨⟨.ttSub, fp.zero⟩ :: ts,
          List.Forall₂.cons (Or.inr (Or.inl ⟨rfl, rfl⟩)) hts⟩
      · exact ⟨⟨.ttMul, fp.zero⟩ :: ts,
          List.Forall₂.cons (Or.inr (Or.inr (Or.inl ⟨rfl, rfl⟩))) hts⟩
      · exact ⟨⟨.ttDiv, fp.zero⟩ :: ts,
          List.Forall₂.cons (Or.inr (Or.inr (Or.inr (Or.inl ⟨rfl, rfl⟩)))) hts⟩
      · exact ⟨⟨.ttRem, fp.zero⟩ :: ts,
          List.Forall₂.cons (Or.inr (Or.inr (Or.inr (Or.inr (Or.inl ⟨rfl, rfl⟩))))) hts⟩
      · exact ⟨⟨.ttLeftBrace, fp.zero⟩ :: ts,
          List.Forall₂.cons (Or.inr (Or.inr (Or.inr (Or.inr (Or.inr (Or.inl ⟨rfl, rfl⟩))))))
            hts⟩
      · exact ⟨⟨.ttRightBrace, fp.zero⟩ :: ts,
          List.Forall₂.cons
            (Or.inr (Or.inr (Or.inr (Or.inr (Or.inr (Or.inr (Or.inl ⟨rfl, rfl⟩))))))) hts⟩
    · rcases h f (List.mem_cons_self _ _) with hs | ⟨v, hv⟩
      · exact absurd hs hsym
      · exact ⟨⟨.ttNumVal, v⟩ :: ts,
          List.Forall₂.cons
            (Or.inr (Or.inr (Or.inr (Or.inr (Or.inr (Or.inr (Or.inr ⟨hsym, rfl, hv⟩)))))))
            hts⟩

/-- The tokenizer on a line of at most 2^30 characters whose fields stand
for a token sequence with as many left as right braces. -/
theorem parseFormula_of_denotes (fp : DoubleModel D) (fields : List (List Char))
    (toks : TokensChain D) (hfields : ∀ f ∈ fields, f ≠ [] ∧ ' ' ∉ f)
    (h : List.Forall₂ (FieldDenotes fp) fields toks)
    (hbr : toks.countP (fun t => t.m_type = .ttLeftBrace) =
      toks.countP (fun t => t.m_type = .ttRightBrace))
    (hlen : (joinFields fields).length ≤ 1024 * 1024 * 1024) :
    parseFormula fp (joinFields fields) = toks := by
  unfold parseFormula
  rw [if_neg (Nat.not_lt.2 hlen), getlineFields_joinFields fields hfields,
    parseLoop_denotes fp fields toks h]
  simp [hbr]

theorem parseFormula_oversize (fp : DoubleModel D) (line : List Char)
    (h : line.length > 1024 * 1024 * 1024) : parseFormula fp line = [] := by
  simp [parseFormula, h]

theorem joinFields_replicate_length (f : List Char) (n : Nat) :
    (joinFields (List.replicate (n + 1) f)).length = n * (f.length + 1) + f.length := by
  induction n with
  | zero => simp [joinFields]
  | succ n ih =>
    rw [List.replicate_succ, List.replicate_succ, joinFields, List.length_append,
      List.length_cons, ← List.replicate_succ, ih]
    ring

/-- C7 (amended). For every line of at most 2^30 characters made of fields
separated by single spaces, each field one of the seven symbols or a fully
parsed number, with as many `(` fields as `)` fields, `parseFormula` returns
one token per field, in order, each the token its field stands for. -/
theorem parseFormula_fields (fp : DoubleModel D) (fields : List (List Char))
    (hvalid : ∀ f ∈ fields, ValidField fp f)
    (hbr : fields.count ['('] = fields.count [')'])
    (hlen : (joinFields fields).length ≤ 1024 * 1024 * 1024) :
    (parseFormula fp (joinFields fields)).length = fields.length ∧
      List.Forall₂ (FieldDenotes fp) fields (parseFormula fp (joinFields fields)) := by
  obtain ⟨toks, htoks⟩ := denotes_exists fp fields (fun f hf => (hvalid f hf).2.2)
  obtain ⟨hl, hr⟩ := denotes_count fp fields toks htoks
  have hp := parseFormula_of_denotes fp fields toks
    (fun f hf => ⟨(hvalid f hf).1, (hvalid f hf).2.1⟩) htoks (by rw [← hl, ← hr, hbr]) hlen
  rw [hp]
  exact ⟨htoks.length_eq.symm, htoks⟩

theorem parseFormula_fields_witness :
    (∀ f ∈ ["(".toList, "1.5".toList, "+".toList, "2".toList, ")".toList],
        ValidField exactModel f) ∧
      (parseFormula exactModel
        (joinFields ["(".toList, "1.5".toList, "+".toList, "2".toList, ")".toList])).length =
          5 ∧
      List.Forall₂ (FieldDenotes exactModel)
        ["(".toList, "1.5".toList, "+".toList, "2".toList, ")".toList]
        (parseFormula exactModel
          (joinFields ["(".toList, "1.5".toList, "+".toList, "2".toList, ")".toList])) :=
  have hvalid : ∀ f ∈ ["(".toList, "1.5".toList, "+".toList, "2".toList, ")".toList],
      ValidField exactModel f := by
    intro f hf
    simp only [List.mem_cons, List.mem_singleton, List.not_mem_nil, or_false] at hf
    rcases hf with rfl | rfl | rfl | rfl | rfl
    · exact ⟨by decide, by decide, Or.inl (by decide)⟩
    · exact ⟨by decide, by decide, Or.inr ⟨⟨3, 2⟩, by decide⟩⟩
    · exact ⟨by decide, by decide, Or.inl (by decide)⟩
    · exact ⟨by decide, by decide, Or.inr ⟨⟨2, 1⟩, by decide⟩⟩
    · exact ⟨by decide, by decide, Or.inl (by decide)⟩
  ⟨hvalid, parseFormula_fields exactModel _ hvalid (by decide) (by decide)⟩

/-- C7, as stated, fails on long lines: the line of 2^29 + 1 fields `+`
separated by single spaces has valid fields and no braces, and `parseFormula`
returns no token for it. -/
theorem oversize_line_yields_no_tokens :
    (List.replicate (2 ^ 29 + 1) ['+']).length = 2 ^ 29 + 1 ∧
      (∀ f ∈ List.replicate (2 ^ 29 + 1) ['+'], ValidField exactModel f) ∧
      (List.replicate (2 ^ 29 + 1) ['+']).count ['('] =
        (List.replicate (2 ^ 29 + 1) ['+']).count [')'] ∧
      parseFormula exactModel (joinFields (List.replicate (2 ^ 29 + 1) ['+'])) = [] := by
  refine ⟨List.length_replicate _ _, ?_, ?_, ?_⟩
  · intro f hf
    rw [List.eq_of_mem_replicate hf]
    exact ⟨by decide, by decide, Or.inl (by decide)⟩
  · rw [List.count_eq_zero_of_not_mem, List.count_eq_zero_of_not_mem]
    · intro h
      exact absurd (List.eq_of_mem_replicate h) (by decide)
    · intro h
      exact absurd (List.eq_of_mem_replicate h) (by decide)
  · apply parseFormula_oversize
    rw [joinFields_replicate_length]
    norm_num

/-! ## The builder on well-formed lines -/

theorem countP_opToken (fp : DoubleModel D) (op : TwoArgKind) :
    (opToken fp op).m_type ≠ .ttLeftBrace ∧ (opToken fp op).m_type ≠ .ttRightBrace := by
  cases op <;> simp [opToken]

theorem tokens_balanced (fp : DoubleModel D) (e : WExpr D) :
    (e.tokens fp).countP (fun t => t.m_type = .ttLeftBrace) =
      (e.tokens fp).countP (fun t => t.m_type = .ttRightBrace) := by
  induction e with
  | num v => simp [WExpr.tokens]
  | paren e ih => simp [WExpr.tokens, List.countP_cons, List.countP_append, ih]
  | opNum e op v ih =>
    obtain ⟨h1, h2⟩ := countP_opToken fp op
    simp [WExpr.tokens, List.countP_cons, List.countP_append, ih, h1, h2]
  | opParen e op g ih ihg =>
    obtain ⟨h1, h2⟩ := countP_opToken fp op
    simp [WExpr.tokens, List.countP_cons, List.countP_append, ih, ihg, h1, h2]

theorem tokens_ne_nil (fp : DoubleModel D) (e : WExpr D) : e.tokens fp ≠ [] := by
  have h := items_le_tokens fp e
  have hi : 1 ≤ e.items := by cases e <;> simp [WExpr.items]
  intro hn
  rw [hn] at h
  simp at h
  omega

/-- The builder on the token sequence of a well-formed expression whose
evaluation is defined. -/
theorem buildAST_refParse (fp : DoubleModel D) (e : WExpr D)
    (hdef : (e.refParse.calc fp).isSome) :
    buildAST fp ((e.tokens fp).length + 1) (e.tokens fp) 0 [] =
      .ret ⟨e.refParse, (e.tokens fp).length, [e.refParse]⟩ := by
  have h := full_of_level fp e (run_level fp e) (e.tokens fp) [] [] ((e.tokens fp).length + 1)
    (by simp) (Or.inl rfl) (Nat.le_refl _) hdef
  simpa [buildAST] using h

/-- C1 (amended). For every well-formed expression `e`, spelled as a line of
at most 2^30 characters whose fields, separated by single spaces, stand for
the tokens of `e`, and such that evaluating the reference parse of `e` is
defined, `buildExpression` returns a tree, and the tree is the reference
parse of `e`. -/
theorem buildExpression_refParse (fp : DoubleModel D) (e : WExpr D)
    (fields : List (List Char)) (hfields : ∀ f ∈ fields, f ≠ [] ∧ ' ' ∉ f)
    (hrender : List.Forall₂ (FieldDenotes fp) fields (e.tokens fp))
    (hlen : (joinFields fields).length ≤ 1024 * 1024 * 1024)
    (hdef : (e.refParse.calc fp).isSome) :
    ReturnsTree (buildExpression fp (joinFields fields)) e.refParse := by
  have hp := parseFormula_of_denotes fp fields (e.tokens fp) hfields hrender
    (tokens_balanced fp e) hlen
  have hne : (e.tokens fp).isEmpty = false := by
    cases h : e.tokens fp with
    | nil => exact absurd h (tokens_ne_nil fp e)
    | cons t ts => rfl
  refine ⟨?_, isNull_of_calc fp _ hdef⟩
  unfold buildExpression
  simp only [hp, hne, buildAST_refParse fp e hdef, isNull_of_calc fp _ hdef]
  simp

theorem buildExpression_refParse_witness :
    ReturnsTree
      (buildExpression exactModel (joinFields ["1".toList, "+".toList, "2".toList,
        "*".toList, "(".toList, "3".toList, "-".toList, "4".toList, ")".toList]))
      (.TwoArgOp .AddOp (.GetValueOp ⟨1, 1⟩)
        (.TwoArgOp .MulOp (.GetValueOp ⟨2, 1⟩)
          (.TwoArgOp .SubOp (.GetValueOp ⟨3, 1⟩) (.GetValueOp ⟨4, 1⟩)))) :=
  buildExpression_refParse exactModel
    (.opParen (.opNum (.num ⟨1, 1⟩) .AddOp ⟨2, 1⟩) .MulOp (.opNum (.num ⟨3, 1⟩) .SubOp ⟨4, 1⟩))
    ["1".toList, "+".toList, "2".toList, "*".toList, "(".toList, "3".toList, "-".toList,
      "4".toList, ")".toList]
    (by decide)
    (by
      repeat
        first
          | exact List.Forall₂.nil
          | refine List.Forall₂.cons (by unfold FieldDenotes; decide) ?_)
    (by decide) (by decide)

/-! ### A well-formed line beyond the length limit -/

theorem joinFields_append_two (a : List (List Char)) (f g : List Char) (ha : a ≠ []) :
    joinFields (a ++ [f, g]) = joinFields a ++ ' ' :: (f ++ ' ' :: g) := by
  induction a with
  | nil => exact absurd rfl ha
  | cons x a ih =>
    cases a with
    | nil => simp [joinFields]
    | cons y a =>
      have := ih (by simp)
      simp only [List.cons_append] at this ⊢
      simp only [joinFields, this, List.append_assoc, List.cons_append]

theorem onesSumFields_ne_nil (n : Nat) : onesSumFields n ≠ [] := by
  cases n <;> simp [onesSumFields]

theorem onesSumFields_length (n : Nat) :
    (joinFields (onesSumFields n)).length = 4 * n + 1 := by
  induction n with
  | zero => rfl
  | succ n ih =>
    rw [onesSumFields, joinFields_append_two _ _ _ (onesSumFields_ne_nil n)]
    simp only [List.length_append, List.length_cons, List.length_nil, ih]
    omega

theorem onesSumFields_spacefree (n : Nat) : ∀ f ∈ onesSumFields n, f ≠ [] ∧ ' ' ∉ f := by
  induction n with
  | zero =>
    intro f hf
    simp only [onesSumFields, List.mem_singleton] at hf
    subst hf
    exact ⟨by decide, by decide⟩
  | succ n ih =>
    intro f hf
    simp only [onesSumFields, List.mem_append, List.mem_cons, List.mem_singleton,
      List.not_mem_nil, or_false] at hf
    rcases hf with hf | rfl | rfl
    · exact ih f hf
    · exact ⟨by decide, by decide⟩
    · exact ⟨by decide, by decide⟩

theorem onesSum_denotes (n : Nat) :
    List.Forall₂ (FieldDenotes exactModel) (onesSumFields n) ((onesSum n).tokens exactModel) := by
  induction n with
  | zero =>
    exact List.Forall₂.cons (by unfold FieldDenotes; decide) List.Forall₂.nil
  | succ n ih =>
    simp only [onesSumFields, onesSum, WExpr.tokens]
    exact List.rel_append ih
      (List.Forall₂.cons (by unfold FieldDenotes; decide)
        (List.Forall₂.cons (by unfold FieldDenotes; decide) List.Forall₂.nil))

theorem onesSum_defined (n : Nat) : ((onesSum n).refParse.calc exactModel).isSome := by
  induction n with
  | zero => rfl
  | succ n ih =>
    have h : (onesSum (n + 1)).refParse =
        .TwoArgOp .AddOp (onesSum n).refParse (.GetValueOp ⟨1, 1⟩) := rfl
    rw [h]
    exact calc_low exactModel _ _ _ rfl ih rfl

/-- C1, as stated, fails on long lines: the well-formed expression
`1 + 1 + ... + 1` with 2^28 additions, spelled with single spaces, is a line
of 2^30 + 1 characters; its evaluation is defined, and `buildExpression`
returns no tree for it. -/
theorem oversize_expression_not_built :
    (∀ f ∈ onesSumFields (2 ^ 28), f ≠ [] ∧ ' ' ∉ f) ∧
      List.Forall₂ (FieldDenotes exactModel) (onesSumFields (2 ^ 28))
        ((onesSum (2 ^ 28)).tokens exactModel) ∧
      ((onesSum (2 ^ 28)).refParse.calc exactModel).isSome ∧
      buildExpression exactModel (joinFields (onesSumFields (2 ^ 28))) = .ret .null := by
  refine ⟨onesSumFields_spacefree _, onesSum_denotes _, onesSum_defined _, ?_⟩
  apply buildExpression_of_parse_nil
  apply parseFormula_oversize
  rw [onesSumFields_length]
  norm_num

/-! ## The recursion budget suffices -/

theorem collapseFrom_ne_outOfFuel (fp : DoubleModel D) (prio : Nat) (top : IOperationPtr D)
    (below : OperationsStack D) : collapseFrom fp prio top below ≠ .outOfFuel := by
  induction top, below using collapseFrom.induct fp prio with
  | case1 top hc => simp [collapseFrom, hc]
  | case2 top hc => simp [collapseFrom, hc]
  | case3 top x => simp [collapseFrom]
  | case4 rArg op lArg rest hn => simp [collapseFrom, hn]
  | case5 rArg op lArg rest hn ht => simp [collapseFrom, hn, ht]
  | case6 rArg op lArg rest hn ht hp hc => simp [collapseFrom, hn, ht, hp, hc]
  | case7 rArg op lArg rest hn ht hp hc => simp [collapseFrom, hn, ht, hp, hc]
  | case8 rArg op lArg rest hn ht hp hl => simp [collapseFrom, hn, ht, hp, hl]
  | case9 rArg op lArg rest hn ht hp hl ih => simpa [collapseFrom, hn, ht, hp, hl] using ih

theorem collapseStack_ne_outOfFuel (fp : DoubleModel D) (st : OperationsStack D) (prio : Nat) :
    collapseStack fp st prio ≠ .outOfFuel := by
  cases st with
  | nil => simp [collapseStack]
  | cons top below => exact collapseFrom_ne_outOfFuel fp prio top below

theorem buildASTFinish_ne_outOfFuel (fp : DoubleModel D) (pos : Nat) (st : OperationsStack D) :
    buildASTFinish fp pos st ≠ .outOfFuel := by
  unfold buildASTFinish
  split
  · simp
  · simp
  · rename_i h
    exact absurd h (collapseStack_ne_outOfFuel fp st 0)

theorem buildASTFinish_currPos (fp : DoubleModel D) (pos : Nat) (st : OperationsStack D)
    (r : BuildResult D) (h : buildASTFinish fp pos st = .ret r) : r.currPos = pos := by
  unfold buildASTFinish at h
  split at h
  · simp only [Outcome.ret.injEq] at h
    subst h
    rfl
  · exact Outcome.noConfusion h
  · exact Outcome.noConfusion h

/-- The cursor never moves backwards. -/
theorem buildASTLoop_currPos (fp : DoubleModel D) (tk : TokensChain D) (fuel pos : Nat)
    (prev : Option (IOperationPtr D)) (opStack : OperationsStack D) (r : BuildResult D)
    (h : buildASTLoop fp tk fuel pos prev opStack = .ret r) : pos ≤ r.currPos := by
  induction fuel generalizing pos prev opStack r with
  | zero => simp [buildASTLoop] at h
  | succ fuel ih =>
    unfold buildASTLoop at h
    split at h
    · exact (buildASTFinish_currPos fp _ _ r h).ge
    · split at h
      · exact Nat.le_of_succ_le (ih _ _ _ r h)
      · split at h
        · rename_i sub hsub
          have hs := ih _ _ _ sub hsub
          split_ifs at h
          · simp only [Outcome.ret.injEq] at h
            subst h
            exact Nat.le_of_succ_le hs
          · have := ih _ _ _ r h
            omega
        · exact Outcome.noConfusion h
        · exact Outcome.noConfusion h
      · exact (buildASTFinish_currPos fp _ _ r h).ge
      · simp only [Outcome.ret.injEq] at h
        subst h
        exact Nat.le_refl _
      · simp only at h
        split_ifs at h
        split at h
        · split_ifs at h
          · split at h
            · split_ifs at h
              · simp only [Outcome.ret.injEq] at h
                subst h
                exact Nat.le_refl _
              · exact Nat.le_of_succ_le (ih _ _ _ r h)
            · exact Outcome.noConfusion h
            · exact Outcome.noConfusion h
          · exact Nat.le_of_succ_le (ih _ _ _ r h)
        · exact Nat.le_of_succ_le (ih _ _ _ r h)

/-- One unit of fuel per token still ahead of the cursor, plus one, is
enough: the loop never stops for lack of fuel. -/
theorem buildASTLoop_fuel (fp : DoubleModel D) (tk : TokensChain D) (fuel pos : Nat)
    (prev : Option (IOperationPtr D)) (opStack : OperationsStack D)
    (h1 : 1 ≤ fuel) (h : tk.length + 1 ≤ fuel + pos) :
    buildASTLoop fp tk fuel pos prev opStack ≠ .outOfFuel := by
  induction fuel generalizing pos prev opStack with
  | zero => omega
  | succ fuel ih =>
    unfold buildASTLoop
    split
    · exact buildASTFinish_ne_outOfFuel fp _ _
    · rename_i currToken hget
      have hlt : pos < tk.length := by
        rw [List.get?_eq_some] at hget
        exact hget.1
      split
      · exact ih _ _ _ (by omega) (by omega)
      · split
        · rename_i sub hsub
          have hs := buildASTLoop_currPos fp tk _ _ _ _ sub hsub
          split_ifs
          · simp
          · simp
          · exact ih _ _ _ (by omega) (by omega)
        · simp
        · rename_i hsub
          exact absurd hsub (ih _ _ _ (by omega) (by omega))
      · exact buildASTFinish_ne_outOfFuel fp _ _
      · simp
      · simp only
        split_ifs
        · simp
        · split
          · split_ifs
            · split
              · split_ifs
                · simp
                · exact ih _ _ _ (by omega) (by omega)
              · simp
              · rename_i hc
                exact absurd hc (collapseStack_ne_outOfFuel fp _ _)
            · exact ih _ _ _ (by omega) (by omega)
          · exact ih _ _ _ (by omega) (by omega)

/-- `buildExpression` always ends with a returned pointer or with undefined
behaviour: the fuel of the embedding never runs out. -/
theorem buildExpression_ne_outOfFuel (fp : DoubleModel D) (line : List Char) :
    buildExpression fp line ≠ .outOfFuel := by
  unfold buildExpression
  simp only
  split_ifs
  · simp
  · split
    · split_ifs <;> simp
    · simp
    · rename_i h
      exact absurd h (buildASTLoop_fuel fp _ _ 0 none [] (by omega) (by omega))

/-! ## Precedence, chains and groups, where evaluation is defined -/

/-- With operators `lo` of priority 0 and `hi` of priority 1, the tokens of
`a lo b hi c` build `lo(a, hi(b, c))` and those of `a hi b lo c` build
`lo(hi(a, b), c)`, provided the evaluation of the tree is defined. -/
theorem precedence_trees (fp : DoubleModel D) (a b c : D) (lo hi : TwoArgKind)
    (hlo : lo.getPriority = 0) (hhi : hi.getPriority = 1) :
    ((((IOperationPtr.TwoArgOp lo (.GetValueOp a)
          (.TwoArgOp hi (.GetValueOp b) (.GetValueOp c))).calc fp).isSome) →
      buildAST fp 6 [⟨.ttNumVal, a⟩, opToken fp lo, ⟨.ttNumVal, b⟩, opToken fp hi,
          ⟨.ttNumVal, c⟩] 0 [] =
        .ret ⟨.TwoArgOp lo (.GetValueOp a) (.TwoArgOp hi (.GetValueOp b) (.GetValueOp c)), 5,
          [.TwoArgOp lo (.GetValueOp a) (.TwoArgOp hi (.GetValueOp b) (.GetValueOp c))]⟩) ∧
    ((((IOperationPtr.TwoArgOp lo (.TwoArgOp hi (.GetValueOp a) (.GetValueOp b))
          (.GetValueOp c)).calc fp).isSome) →
      buildAST fp 6 [⟨.ttNumVal, a⟩, opToken fp hi, ⟨.ttNumVal, b⟩, opToken fp lo,
          ⟨.ttNumVal, c⟩] 0 [] =
        .ret ⟨.TwoArgOp lo (.TwoArgOp hi (.GetValueOp a) (.GetValueOp b)) (.GetValueOp c), 5,
          [.TwoArgOp lo (.TwoArgOp hi (.GetValueOp a) (.GetValueOp b)) (.GetValueOp c)]⟩) := by
  have hl : lo.bindsTighter = false := (not_bindsTighter_iff lo).2 hlo
  have hh : hi.bindsTighter = true := (bindsTighter_iff hi).2 hhi
  constructor
  · intro hdef
    have hr : (WExpr.opNum (.opNum (.num a) lo b) hi c).refParse =
        .TwoArgOp lo (.GetValueOp a) (.TwoArgOp hi (.GetValueOp b) (.GetValueOp c)) := by
      simp [WExpr.refParse, WExpr.refState, RefState.extend, RefState.close, hl, hh]
    have h := buildAST_refParse fp (.opNum (.opNum (.num a) lo b) hi c) (by rw [hr]; exact hdef)
    rw [hr] at h
    simpa [WExpr.tokens] using h
  · intro hdef
    have hr : (WExpr.opNum (.opNum (.num a) hi b) lo c).refParse =
        .TwoArgOp lo (.TwoArgOp hi (.GetValueOp a) (.GetValueOp b)) (.GetValueOp c) := by
      simp [WExpr.refParse, WExpr.refState, RefState.extend, RefState.close, hl, hh]
    have h := buildAST_refParse fp (.opNum (.opNum (.num a) hi b) lo c) (by rw [hr]; exact hdef)
    rw [hr] at h
    simpa [WExpr.tokens] using h

theorem chain_refState_low (rest : List (TwoArgKind × D)) (e : WExpr D)
    (h : ∀ p ∈ rest, p.1.getPriority = 0) :
    (rest.foldl (fun e p => WExpr.opNum e p.1 p.2) e).refParse =
      rest.foldl (fun t p => .TwoArgOp p.1 t (.GetValueOp p.2)) e.refParse := by
  induction rest generalizing e with
  | nil => rfl
  | cons p rest ih =>
    have hp : p.1.bindsTighter = false :=
      (not_bindsTighter_iff p.1).2 (h p (List.mem_cons_self _ _))
    simp only [List.foldl_cons]
    rw [ih _ (fun q hq => h q (List.mem_cons_of_mem _ hq))]
    congr 1
    simp [WExpr.refParse, WExpr.refState, RefState.extend, RefState.close, hp]

theorem chain_refState_high (rest : List (TwoArgKind × D)) (e : WExpr D)
    (h : ∀ p ∈ rest, p.1.getPriority = 1) (he : e.refState.pending = none) :
    (rest.foldl (fun e p => WExpr.opNum e p.1 p.2) e).refParse =
      rest.foldl (fun t p => .TwoArgOp p.1 t (.GetValueOp p.2)) e.refParse := by
  induction rest generalizing e with
  | nil => rfl
  | cons p rest ih =>
    have hp : p.1.bindsTighter = true :=
      (bindsTighter_iff p.1).2 (h p (List.mem_cons_self _ _))
    simp only [List.foldl_cons]
    rw [ih _ (fun q hq => h q (List.mem_cons_of_mem _ hq))
      (by simp [WExpr.refState, RefState.extend, hp, he])]
    congr 1
    simp [WExpr.refParse, WExpr.refState, RefState.extend, RefState.close, hp, he]

/-- A chain of numbers joined by operators of one priority builds the
left-nested tree, provided the evaluation of that tree is defined. -/
theorem chain_trees (fp : DoubleModel D) (x0 : D) (rest : List (TwoArgKind × D))
    (h : (∀ p ∈ rest, p.1.getPriority = 0) ∨ (∀ p ∈ rest, p.1.getPriority = 1))
    (hdef : ((leftNested x0 rest).calc fp).isSome) :
    buildAST fp (((chainExpr x0 rest).tokens fp).length + 1) ((chainExpr x0 rest).tokens fp) 0
        [] =
      .ret ⟨leftNested x0 rest, ((chainExpr x0 rest).tokens fp).length,
        [leftNested x0 rest]⟩ := by
  have hr : (chainExpr x0 rest).refParse = leftNested x0 rest := by
    rcases h with h | h
    · exact chain_refState_low rest (.num x0) h
    · exact chain_refState_high rest (.num x0) h rfl
  have := buildAST_refParse fp (chainExpr x0 rest) (by rw [hr]; exact hdef)
  rw [hr] at this
  exact this

/-- A parenthesised well-formed expression is one operand: `( e )` builds the
tree of `e`, `( e ) op c` builds `op(tree(e), c)` and `c op ( e )` builds
`op(c, tree(e))`, provided the evaluation of the tree is defined. -/
theorem group_trees (fp : DoubleModel D) (e : WExpr D) (op : TwoArgKind) (c : D) :
    (((e.refParse.calc fp).isSome) →
      buildAST fp (((WExpr.paren e).tokens fp).length + 1) ((WExpr.paren e).tokens fp) 0 [] =
        .ret ⟨e.refParse, ((WExpr.paren e).tokens fp).length, [e.refParse]⟩) ∧
    ((((IOperationPtr.TwoArgOp op e.refParse (.GetValueOp c)).calc fp).isSome) →
      buildAST fp (((WExpr.opNum (.paren e) op c).tokens fp).length + 1)
          ((WExpr.opNum (.paren e) op c).tokens fp) 0 [] =
        .ret ⟨.TwoArgOp op e.refParse (.GetValueOp c),
          ((WExpr.opNum (.paren e) op c).tokens fp).length,
          [.TwoArgOp op e.refParse (.GetValueOp c)]⟩) ∧
    ((((IOperationPtr.TwoArgOp op (.GetValueOp c) e.refParse).calc fp).isSome) →
      buildAST fp (((WExpr.opParen (.num c) op e).tokens fp).length + 1)
          ((WExpr.opParen (.num c) op e).tokens fp) 0 [] =
        .ret ⟨.TwoArgOp op (.GetValueOp c) e.refParse,
          ((WExpr.opParen (.num c) op e).tokens fp).length,
          [.TwoArgOp op (.GetValueOp c) e.refParse]⟩) := by
  have h1 : (WExpr.opNum (.paren e) op c).refParse =
      .TwoArgOp op e.refParse (.GetValueOp c) := by
    cases hop : op.bindsTighter <;>
      simp [WExpr.refParse, WExpr.refState, RefState.extend, RefState.close, hop]
  have h2 : (WExpr.opParen (.num c) op e).refParse =
      .TwoArgOp op (.GetValueOp c) e.refParse := by
    cases hop : op.bindsTighter <;>
      simp [WExpr.refParse, WExpr.refState, RefState.extend, RefState.close, hop]
  refine ⟨fun hdef => buildAST_refParse fp (.paren e) hdef, fun hdef => ?_, fun hdef => ?_⟩
  · have := buildAST_refParse fp (.opNum (.paren e) op c) (by rw [h1]; exact hdef)
    rw [h1] at this
    exact this
  · have := buildAST_refParse fp (.opParen (.num c) op e) (by rw [h2]; exact hdef)
    rw [h2] at this
    exact this

/-! ## Evaluations at particular lines -/

/-- C4. The line `2 + 3 * 4` builds `Add(2, Mul(3, 4))`, which evaluates to
14; on the line `1 + 2 % 0`, where the claim promises `Add(1, Rem(2, 0))`, the
final collapse evaluates the finished tree for its log line, the remainder by
zero is undefined, and no tree is returned. -/
theorem precedence_build_remainder_by_zero :
    buildExpression exactModel "2 + 3 * 4".toList =
        .ret (.TwoArgOp .AddOp (.GetValueOp ⟨2, 1⟩)
          (.TwoArgOp .MulOp (.GetValueOp ⟨3, 1⟩) (.GetValueOp ⟨4, 1⟩))) ∧
      (IOperationPtr.TwoArgOp .AddOp (.GetValueOp ⟨2, 1⟩)
          (.TwoArgOp .MulOp (.GetValueOp ⟨3, 1⟩) (.GetValueOp ⟨4, 1⟩))).calc exactModel =
        some ⟨14, 1⟩ ∧
      parseFormula exactModel "1 + 2 % 0".toList =
        [⟨.ttNumVal, ⟨1, 1⟩⟩, ⟨.ttAdd, ⟨0, 1⟩⟩, ⟨.ttNumVal, ⟨2, 1⟩⟩, ⟨.ttRem, ⟨0, 1⟩⟩,
          ⟨.ttNumVal, ⟨0, 1⟩⟩] ∧
      buildExpression exactModel "1 + 2 % 0".toList = .fault := by
  decide

/-- C5. The line `8 - 3 - 2` builds `Sub(Sub(8, 3), 2)`, which evaluates to
3; on the chain `6 % 0 % 4`, where the claim promises `Rem(Rem(6, 0), 4)`, the
collapse made before the second operator is pushed evaluates `Rem(6, 0)` for
its log line, the remainder by zero is undefined, and no tree is returned. -/
theorem chain_build_remainder_by_zero :
    buildExpression exactModel "8 - 3 - 2".toList =
        .ret (.TwoArgOp .SubOp
          (.TwoArgOp .SubOp (.GetValueOp ⟨8, 1⟩) (.GetValueOp ⟨3, 1⟩)) (.GetValueOp ⟨2, 1⟩)) ∧
      (IOperationPtr.TwoArgOp .SubOp
          (.TwoArgOp .SubOp (.GetValueOp ⟨8, 1⟩) (.GetValueOp ⟨3, 1⟩))
          (.GetValueOp ⟨2, 1⟩)).calc exactModel = some ⟨3, 1⟩ ∧
      collapseStack exactModel
          [.GetValueOp ⟨0, 1⟩, opNode .RemOp, .GetValueOp ⟨6, 1⟩] 1 = .fault ∧
      buildExpression exactModel "6 % 0 % 4".toList = .fault := by
  decide

/-- C6. The lines `( 2 + 3 ) * 4` and `( ( 1 + 2 ) * ( 3 + 4 ) )` build trees
that evaluate to 20 and 21; on the line `( 1 ) % 0`, where the claim promises
`Rem(1, 0)`, the final collapse evaluates the finished tree for its log line,
the remainder by zero is undefined, and no tree is returned. -/
theorem group_build_remainder_by_zero :
    buildExpression exactModel "( 2 + 3 ) * 4".toList =
        .ret (.TwoArgOp .MulOp
          (.TwoArgOp .AddOp (.GetValueOp ⟨2, 1⟩) (.GetValueOp ⟨3, 1⟩)) (.GetValueOp ⟨4, 1⟩)) ∧
      (IOperationPtr.TwoArgOp .MulOp
          (.TwoArgOp .AddOp (.GetValueOp ⟨2, 1⟩) (.GetValueOp ⟨3, 1⟩))
          (.GetValueOp ⟨4, 1⟩)).calc exactModel = some ⟨20, 1⟩ ∧
      buildExpression exactModel "( ( 1 + 2 ) * ( 3 + 4 ) )".toList =
        .ret (.TwoArgOp .MulOp
          (.TwoArgOp .AddOp (.GetValueOp ⟨1, 1⟩) (.GetValueOp ⟨2, 1⟩))
          (.TwoArgOp .AddOp (.GetValueOp ⟨3, 1⟩) (.GetValueOp ⟨4, 1⟩))) ∧
      (IOperationPtr.TwoArgOp .MulOp
          (.TwoArgOp .AddOp (.GetValueOp ⟨1, 1⟩) (.GetValueOp ⟨2, 1⟩))
          (.TwoArgOp .AddOp (.GetValueOp ⟨3, 1⟩) (.GetValueOp ⟨4, 1⟩))).calc exactModel =
        some ⟨21, 1⟩ ∧
      buildExpression exactModel "( 1 )".toList = .ret (.GetValueOp ⟨1, 1⟩) ∧
      buildExpression exactModel "( 1 ) % 0".toList = .fault := by
  decide

/-- C10. The lines `1 + ` and `+ 1` yield no tree; on the line `1 + 2 *`
(the well-formed `1 + 2` followed by an operator) the final collapse pops the
number 2 as the operator of its triple, the assertion `op->isTwoArgOp()`
fails, and nothing is returned. -/
theorem trailing_operator_assertion :
    buildExpression exactModel "1 + ".toList = .ret .null ∧
      buildExpression exactModel "+ 1".toList = .ret .null ∧
      parseFormula exactModel "1 + 2 *".toList =
        [⟨.ttNumVal, ⟨1, 1⟩⟩, ⟨.ttAdd, ⟨0, 1⟩⟩, ⟨.ttNumVal, ⟨2, 1⟩⟩, ⟨.ttMul, ⟨0, 1⟩⟩] ∧
      collapseStack exactModel
          [opNode .MulOp, .GetValueOp ⟨2, 1⟩, opNode .AddOp, .GetValueOp ⟨1, 1⟩] 0 = .fault ∧
      buildExpression exactModel "1 + 2 *".toList = .fault := by
  decide

/-! ## Unclosed braces -/

theorem openDepth_count (tk : TokensChain D) (d d' : Nat) (h : openDepth tk d = some d') :
    tk.countP (fun t => t.m_type = .ttLeftBrace) + d =
      tk.countP (fun t => t.m_type = .ttRightBrace) + d' := by
  induction tk generalizing d with
  | nil =>
    simp only [openDepth, Option.some.injEq] at h
    simp [h]
  | cons t ts ih =>
    rw [openDepth] at h
    cases hty : t.m_type <;> simp only [hty] at h <;> (try split_ifs at h) <;>
      have := ih _ h <;> simp [List.countP_cons, hty] <;> omega

/-- The tokenizer loop keeps its two counters equal to the numbers of left and
right braces in `result`, until it clears `result`. -/
theorem parseLoop_counts (fp : DoubleModel D) (fields : List (List Char)) (st : ParseState D)
    (hO : st.nOpeningBraces = st.result.countP (fun t => t.m_type = .ttLeftBrace))
    (hC : st.nClosingBraces = st.result.countP (fun t => t.m_type = .ttRightBrace)) :
    (parseLoop fp fields st).result = [] ∨
      ((parseLoop fp fields st).nOpeningBraces =
          (parseLoop fp fields st).result.countP (fun t => t.m_type = .ttLeftBrace) ∧
        (parseLoop fp fields st).nClosingBraces =
          (parseLoop fp fields st).result.countP (fun t => t.m_type = .ttRightBrace)) := by
  induction fields generalizing st with
  | nil => exact Or.inr ⟨by simpa [parseLoop] using hO, by simpa [parseLoop] using hC⟩
  | cons opStr rest ih =>
    unfold parseLoop
    split_ifs with h1 h2 h3 h4 h5 h6 h7
    · apply ih <;> simp [hO, hC]
    · apply ih <;> simp [hO, hC]
    · apply ih <;> simp [hO, hC]
    · apply ih <;> simp [hO, hC]
    · apply ih <;> simp [hO, hC]
    · apply ih <;> simp [hO, hC]
    · apply ih <;> simp [hO, hC]
    · split
      · exact Or.inl rfl
      · split_ifs
        · exact Or.inl rfl
        · apply ih <;> simp [hO, hC]

/-- Every token sequence `parseFormula` returns has as many left as right
braces. -/
theorem parseFormula_braces_equal (fp : DoubleModel D) (line : List Char) :
    (parseFormula fp line).countP (fun t => t.m_type = .ttLeftBrace) =
      (parseFormula fp line).countP (fun t => t.m_type = .ttRightBrace) := by
  by_cases hlen : line.length > 1024 * 1024 * 1024
  · simp [parseFormula, hlen]
  · by_cases hne : (parseLoop fp (getlineFields line) ⟨[], 0, 0⟩).nOpeningBraces ≠
        (parseLoop fp (getlineFields line) ⟨[], 0, 0⟩).nClosingBraces
    · simp [parseFormula, hlen, hne]
    · rcases parseLoop_counts fp (getlineFields line) ⟨[], 0, 0⟩ rfl rfl with hr | ⟨h2, h3⟩
      · simp [parseFormula, hlen, hr]
      · have hres : parseFormula fp line =
            (parseLoop fp (getlineFields line) ⟨[], 0, 0⟩).result := by
          simp [parseFormula, hlen, hne]
        rw [hres, ← h2, ← h3]
        exact not_not.mp hne

/-- No token sequence `parseFormula` returns ends a scan with a left brace
still open: `buildExpression` never starts `buildAST` on such a sequence. -/
theorem parseFormula_no_open_brace (fp : DoubleModel D) (line : List Char) (d : Nat) :
    openDepth (parseFormula fp line) 0 ≠ some (d + 1) := by
  intro h
  have hc := openDepth_count _ 0 (d + 1) h
  have he := parseFormula_braces_equal fp line
  omega

/-- The scan of `openDepth` at its borders. On the tokens of `( 1 +` a left
brace is open at the end of the input and `buildAST` returns no tree: the
final collapse of the recursive call finds two nodes and returns no node. On
the tokens of `1 ) ( 2` the scan stops at the right brace at depth 0, both
kinds of brace occur once, `parseFormula` keeps the four tokens, and
`buildExpression` returns the tree of `1`. -/
theorem openDepth_borders :
    openDepth [⟨.ttLeftBrace, exactModel.zero⟩, ⟨.ttNumVal, ⟨1, 1⟩⟩,
        (⟨.ttAdd, exactModel.zero⟩ : RawToken Frac)] 0 = some 1 ∧
      buildAST exactModel 4 [⟨.ttLeftBrace, exactModel.zero⟩, ⟨.ttNumVal, ⟨1, 1⟩⟩,
        ⟨.ttAdd, exactModel.zero⟩] 0 [] = .ret ⟨.null, 3, []⟩ ∧
      openDepth [⟨.ttNumVal, ⟨1, 1⟩⟩, ⟨.ttRightBrace, exactModel.zero⟩,
        ⟨.ttLeftBrace, exactModel.zero⟩, (⟨.ttNumVal, ⟨2, 1⟩⟩ : RawToken Frac)] 0 = none ∧
      parseFormula exactModel "1 ) ( 2".toList =
        [⟨.ttNumVal, ⟨1, 1⟩⟩, ⟨.ttRightBrace, exactModel.zero⟩,
          ⟨.ttLeftBrace, exactModel.zero⟩, ⟨.ttNumVal, ⟨2, 1⟩⟩] ∧
      buildExpression exactModel "1 ) ( 2".toList = .ret (.GetValueOp ⟨1, 1⟩) := by
  decide

/-! ## Evaluation of the remainder -/

theorem tmod_natAbs_lt (a b : Int) (hb : b ≠ 0) : (Int.tmod a b).natAbs < b.natAbs := by
  cases a with
  | ofNat m =>
    cases b with
    | ofNat n =>
      have hn : 0 < n := Nat.pos_of_ne_zero (fun h => hb (by simp [h]))
      have := Nat.mod_lt m hn
      simp only [Int.ofNat_eq_coe, Int.natAbs_ofNat]
      rw [← Int.ofNat_tmod, Int.natAbs_ofNat]
      exact this
    | negSucc n =>
      have := Nat.mod_lt m (Nat.succ_pos n)
      show (Int.ofNat (m % n.succ)).natAbs < n.succ
      simpa using this
  | negSucc m =>
    cases b with
    | ofNat n =>
      have hn : 0 < n := Nat.pos_of_ne_zero (fun h => hb (by simp [h]))
      have := Nat.mod_lt m.succ hn
      show (-Int.ofNat (m.succ % n)).natAbs < n
      simpa using this
    | negSucc n =>
      have := Nat.mod_lt m.succ (Nat.succ_pos n)
      show (-Int.ofNat (m.succ % n.succ)).natAbs < n.succ
      simpa using this

theorem tmod_nonpos (a b : Int) (ha : a ≤ 0) : Int.tmod a b ≤ 0 := by
  cases a with
  | ofNat m =>
    have hm : m = 0 := by
      have : (m : Int) ≤ 0 := ha
      omega
    subst hm
    simp
  | negSucc m =>
    cases b with
    | ofNat n =>
      show -Int.ofNat (m.succ % n) ≤ 0
      simp only [Int.ofNat_eq_coe]
      omega
    | negSucc n =>
      show -Int.ofNat (m.succ % n.succ) ≤ 0
      simp only [Int.ofNat_eq_coe]
      omega

/-- C12 (amended). For all values `l` and `r` whose conversions to `long`
are defined, say `a` and `b`, with `b ≠ 0` and not both `a = LONG_MIN` and
`b = -1`, evaluating a `RemOp` node whose arguments evaluate to `l` and `r`
returns the remainder `m` of the division of `a` by `b` that truncates toward
zero: `a = b * (a / b) + m` with `|m| < |b|`, and `m` has the sign of `a`. -/
theorem rem_calc (fp : DoubleModel D) (L R : IOperationPtr D) (l r : D) (a b : Int)
    (hL : L.calc fp = some l) (hR : R.calc fp = some r)
    (ha : fp.toLong l = some a) (hb : fp.toLong r = some b)
    (hb0 : b ≠ 0) (hov : ¬ (a = fp.longMin ∧ b = -1)) :
    ∃ m : Int, (IOperationPtr.TwoArgOp .RemOp L R).calc fp = some (fp.ofLong m) ∧
      a = b * Int.tdiv a b + m ∧ m.natAbs < b.natAbs ∧ (0 ≤ a → 0 ≤ m) ∧ (a ≤ 0 → m ≤ 0) := by
  refine ⟨Int.tmod a b, ?_, (Int.tdiv_add_tmod a b).symm, tmod_natAbs_lt a b hb0,
    Int.tmod_nonneg b, tmod_nonpos a b⟩
  simp [IOperationPtr.calc, hL, hR, TwoArgKind.apply, ha, hb, remLong, hb0, hov]

theorem rem_calc_witness :
    (exactModel.toLong ⟨79, 10⟩ = some 7 ∧ exactModel.toLong ⟨2, 1⟩ = some 2) ∧
      (∃ m : Int,
        (IOperationPtr.TwoArgOp .RemOp (.GetValueOp ⟨79, 10⟩) (.GetValueOp ⟨2, 1⟩)).calc
            exactModel = some (exactModel.ofLong m) ∧
          (7 : Int) = 2 * Int.tdiv 7 2 + m ∧ m.natAbs < (2 : Int).natAbs ∧
          ((0 : Int) ≤ 7 → 0 ≤ m) ∧ ((7 : Int) ≤ 0 → m ≤ 0)) ∧
      buildExpression exactModel "7.9 % 2".toList =
        .ret (.TwoArgOp .RemOp (.GetValueOp ⟨79, 10⟩) (.GetValueOp ⟨2, 1⟩)) ∧
      (IOperationPtr.TwoArgOp .RemOp (.GetValueOp ⟨79, 10⟩) (.GetValueOp ⟨2, 1⟩)).calc
          exactModel = some ⟨1, 1⟩ ∧
      buildExpression exactModel "10 % 3".toList =
        .ret (.TwoArgOp .RemOp (.GetValueOp ⟨10, 1⟩) (.GetValueOp ⟨3, 1⟩)) ∧
      (IOperationPtr.TwoArgOp .RemOp (.GetValueOp ⟨10, 1⟩) (.GetValueOp ⟨3, 1⟩)).calc
          exactModel = some ⟨1, 1⟩ :=
  ⟨⟨by decide, by decide⟩,
   rem_calc exactModel (.GetValueOp ⟨79, 10⟩) (.GetValueOp ⟨2, 1⟩) ⟨79, 10⟩ ⟨2, 1⟩ 7 2 rfl rfl
     (by decide) (by decide) (by decide) (by decide),
   by decide, by decide, by decide, by decide⟩

/-- C12, as stated, fails where the quotient overflows: `-9223372036854775808`
and `-1` both convert to `long` (to `LONG_MIN` and `-1`, the divisor not zero),
and `LONG_MIN % -1` is undefined, so evaluating the `RemOp` node returns no
value; the build of the line `-9223372036854775808 % -1`, which evaluates the
node for its log line, faults. -/
theorem rem_overflow_undefined :
    exactModel.toLong ⟨-9223372036854775808, 1⟩ = some exactModel.longMin ∧
      exactModel.toLong ⟨-1, 1⟩ = some (-1) ∧
      (IOperationPtr.TwoArgOp .RemOp (.GetValueOp ⟨-9223372036854775808, 1⟩)
          (.GetValueOp (⟨-1, 1⟩ : Frac))).calc exactModel = none ∧
      parseFormula exactModel "-9223372036854775808 % -1".toList =
        [⟨.ttNumVal, ⟨-9223372036854775808, 1⟩⟩, ⟨.ttRem, ⟨0, 1⟩⟩, ⟨.ttNumVal, ⟨-1, 1⟩⟩] ∧
      buildExpression exactModel "-9223372036854775808 % -1".toList = .fault := by
  decide

/-! ## `collapseStack` on its own -/

/-- A collapse that is blocked by priority leaves the stack as it was and
returns its top, provided the top is a node whose evaluation is defined. -/
theorem collapseStack_blocked (fp : DoubleModel D) (prio : Nat) (rArg op lArg : IOperationPtr D)
    (rest : OperationsStack D) (hop : op.isTwoArgOp = true) (hp : op.getPriority < prio)
    (hr : (rArg.calc fp).isSome) :
    collapseStack fp (rArg :: op :: lArg :: rest) prio =
      .ret (rArg, rArg :: op :: lArg :: rest) := by
  have hon : op.isNull = false := by
    cases op <;> simp [IOperationPtr.isTwoArgOp] at hop
    rfl
  simp only [collapseStack]
  rw [collapseFrom]
  simp [isNull_of_calc fp rArg hr, isNone_of_calc fp rArg hr, hon, hop, hp]

/-- C16. On the stack `Rem(2, 0), Add, 1` (top first) with target priority 1,
which the line `1 + 2 % 0 * 3` produces when its `*` arrives, the operator
`Add` blocks the reduction; instead of returning the top with the stack
unchanged, the call evaluates the top for its log line, and the remainder by
zero is undefined. -/
theorem blocked_collapse_evaluates_top :
    (IOperationPtr.TwoArgOp .AddOp .null .null : IOperationPtr Frac).isTwoArgOp = true ∧
      (IOperationPtr.TwoArgOp .AddOp .null .null : IOperationPtr Frac).getPriority < 1 ∧
      collapseStack exactModel
        [.TwoArgOp .RemOp (.GetValueOp ⟨2, 1⟩) (.GetValueOp ⟨0, 1⟩), .TwoArgOp .AddOp .null .null,
          .GetValueOp ⟨1, 1⟩] 1 = .fault ∧
      collapseStack exactModel
        [.GetValueOp ⟨0, 1⟩, .TwoArgOp .RemOp .null .null, .GetValueOp ⟨2, 1⟩,
          .TwoArgOp .AddOp .null .null, .GetValueOp ⟨1, 1⟩] 1 = .fault ∧
      buildExpression exactModel "1 + 2 % 0 * 3".toList = .fault := by
  decide

/-- C17. On a stack of zero or of two nodes `collapseStack` returns no node
and leaves the stack unchanged, and on a stack of one node whose evaluation
is defined it returns that node and leaves the stack unchanged; on the stack
that holds only a childless `Add` node, which the line `+` produces, it
evaluates the node for its log line and dereferences a null argument. -/
theorem single_node_collapse_evaluates :
    (∀ (E : Type) (fp : DoubleModel E) (prio : Nat),
        collapseStack fp ([] : OperationsStack E) prio = .ret (.null, [])) ∧
      (∀ (E : Type) (fp : DoubleModel E) (prio : Nat) (a b : IOperationPtr E),
        collapseStack fp [a, b] prio = .ret (.null, [a, b])) ∧
      (∀ (E : Type) (fp : DoubleModel E) (prio : Nat) (x : IOperationPtr E),
        (x.calc fp).isSome → collapseStack fp [x] prio = .ret (x, [x])) ∧
      (∀ prio : Nat, collapseStack exactModel [.TwoArgOp .AddOp .null .null] prio = .fault) ∧
      parseFormula exactModel "+".toList = [⟨.ttAdd, ⟨0, 1⟩⟩] ∧
      buildExpression exactModel "+".toList = .fault := by
  refine ⟨fun _ _ _ => rfl, fun _ _ _ _ _ => rfl, fun E fp prio x hx => ?_, fun _ => rfl,
    by decide, by decide⟩
  exact collapseFrom_single fp prio x hx

/-- C14. On the lines `1 2 3` and `1 + 2 3` the final collapse pops a triple
whose middle node is the number 2: the assertion `op->isTwoArgOp()` fails and
nothing is returned. -/
theorem adjacent_numbers_assertion :
    parseFormula exactModel "1 2 3".toList =
        [⟨.ttNumVal, ⟨1, 1⟩⟩, ⟨.ttNumVal, ⟨2, 1⟩⟩, ⟨.ttNumVal, ⟨3, 1⟩⟩] ∧
      (IOperationPtr.GetValueOp (⟨2, 1⟩ : Frac)).isTwoArgOp = false ∧
      collapseStack exactModel
        [.GetValueOp ⟨3, 1⟩, .GetValueOp ⟨2, 1⟩, .GetValueOp ⟨1, 1⟩] 0 = .fault ∧
      buildExpression exactModel "1 2 3".toList = .fault ∧
      collapseStack exactModel
        [.GetValueOp ⟨3, 1⟩, .GetValueOp ⟨2, 1⟩, .TwoArgOp .AddOp .null .null,
          .GetValueOp ⟨1, 1⟩] 0 = .fault ∧
      buildExpression exactModel "1 + 2 3".toList = .fault := by
  decide

theorem collapseFromTrace_spec (fp : DoubleModel D) (prio : Nat) (top : IOperationPtr D)
    (below : OperationsStack D) :
    (collapseFromTrace prio top below).head? = some (top :: below) ∧
      List.Chain'
        (fun a b => b.length + 2 = a.length ∧ collapseStack fp a prio = collapseStack fp b prio)
        (collapseFromTrace prio top below) ∧
      2 * (collapseFromTrace prio top below).length ≤ (top :: below).length + 1 := by
  induction top, below using collapseFromTrace.induct prio with
  | case1 top => simp [collapseFromTrace]
  | case2 top x => simp [collapseFromTrace]
  | case3 rArg op lArg rest ih =>
    obtain ⟨hh, hc, hlen⟩ := ih
    rw [collapseFromTrace]
    by_cases hn : (rArg.isNull || op.isNull) = true
    · simp [hn]
    by_cases ht : (!op.isTwoArgOp) = true
    · simp [hn, ht]
    by_cases hp : op.getPriority < prio
    · simp [hn, ht, hp]
    by_cases hl : lArg.isNull = true
    · simp [hn, ht, hp, hl]
    simp only [hn, ht, hp, hl, Bool.false_eq_true, ↓reduceIte, List.head?_cons, true_and]
    refine ⟨?_, ?_⟩
    · rw [List.chain'_cons']
      refine ⟨?_, hc⟩
      intro y hy
      rw [hh] at hy
      simp only [Option.mem_def, Option.some.injEq] at hy
      subst hy
      refine ⟨by simp, ?_⟩
      simp only [collapseStack]
      rw [collapseFrom]
      simp [hn, ht, hp, hl]
    · simp only [List.length_cons] at hlen ⊢
      omega

/-- C18. `collapseStack` terminates: the stacks of its successive calls start
with the given stack, each recursive call is made on a stack of exactly two
nodes fewer and yields the result of the call that makes it, so there are at
most `size / 2 + 1` calls; there is no further call when one node remains,
when fewer than three remain, or when the operator below the top has a
priority lower than the target. -/
theorem collapseStack_terminates (fp : DoubleModel D) (opStack : OperationsStack D)
    (prio : Nat) :
    collapseStack fp opStack prio ≠ .outOfFuel ∧
      (collapseStackTrace opStack prio).head? = some opStack ∧
      List.Chain'
        (fun a b => b.length + 2 = a.length ∧ collapseStack fp a prio = collapseStack fp b prio)
        (collapseStackTrace opStack prio) ∧
      2 * (collapseStackTrace opStack prio).length ≤ opStack.length + 2 ∧
      (opStack.length < 3 → collapseStackTrace opStack prio = [opStack]) ∧
      (∀ rArg op lArg rest, opStack = rArg :: op :: lArg :: rest → op.getPriority < prio →
        collapseStackTrace opStack prio = [opStack]) := by
  refine ⟨collapseStack_ne_outOfFuel fp opStack prio, ?_, ?_, ?_, ?_, ?_⟩
  · cases opStack with
    | nil => rfl
    | cons top below => exact (collapseFromTrace_spec fp prio top below).1
  · cases opStack with
    | nil => simp [collapseStackTrace]
    | cons top below => exact (collapseFromTrace_spec fp prio top below).2.1
  · cases opStack with
    | nil => simp [collapseStackTrace]
    | cons top below =>
      have := (collapseFromTrace_spec fp prio top below).2.2
      simp only [collapseStackTrace]
      omega
  · intro h
    match opStack, h with
    | [], _ => rfl
    | [x], _ => rfl
    | [x, y], _ => rfl
  · rintro rArg op lArg rest rfl hp
    simp only [collapseStackTrace, collapseFromTrace, hp, ↓reduceIte]
    split_ifs <;> rfl

/-- C19. Whenever `buildAST`, entered with an empty stack, returns a tree,
its stack holds exactly that tree and nothing else (a collapse with target
priority 0 that returns a node leaves that node alone on the stack), so that
the test `opStack.size() == 1` of `buildExpression` lets the tree through. -/
theorem buildAST_leaves_single_node (fp : DoubleModel D) (fuel : Nat) (tk : TokensChain D)
    (pos : Nat) (r : BuildResult D) (h : buildAST fp fuel tk pos [] = .ret r)
    (hres : r.res.isNull = false) :
    r.opStack = [r.res] ∧
      (∀ (st st' : OperationsStack D) (res : IOperationPtr D),
        collapseStack fp st 0 = .ret (res, st') → res.isNull = false → st' = [res]) ∧
      (∀ line, parseFormula fp line = tk → fuel = tk.length + 1 → pos = 0 →
        buildExpression fp line = .ret r.res) := by
  have hst := (buildASTLoop_ret fp tk fuel pos none [] r h hres).2
  refine ⟨hst, fun st st' res hc hn => (collapseStack_zero_ret fp st res st' hc hn).2, ?_⟩
  rintro line hline rfl rfl
  have hne : tk.isEmpty = false := by
    cases tk with
    | nil =>
      have : buildAST fp 1 ([] : TokensChain D) 0 [] = .ret ⟨.null, 0, []⟩ := rfl
      simp only [List.length_nil, Nat.zero_add] at h
      rw [this] at h
      simp only [Outcome.ret.injEq] at h
      rw [← h] at hres
      simp [IOperationPtr.isNull] at hres
    | cons t ts => rfl
  unfold buildExpression
  simp [hline, hne, h, hres, hst]

theorem buildAST_leaves_single_node_witness :
    buildAST exactModel 4 (parseFormula exactModel "2 + 3".toList) 0 [] =
        .ret ⟨.TwoArgOp .AddOp (.GetValueOp ⟨2, 1⟩) (.GetValueOp ⟨3, 1⟩), 3,
          [.TwoArgOp .AddOp (.GetValueOp ⟨2, 1⟩) (.GetValueOp ⟨3, 1⟩)]⟩ ∧
      ([IOperationPtr.TwoArgOp .AddOp (.GetValueOp ⟨2, 1⟩) (.GetValueOp (⟨3, 1⟩ : Frac))] =
          [.TwoArgOp .AddOp (.GetValueOp ⟨2, 1⟩) (.GetValueOp ⟨3, 1⟩)] ∧
        (∀ (st st' : OperationsStack Frac) (res : IOperationPtr Frac),
          collapseStack exactModel st 0 = .ret (res, st') → res.isNull = false → st' = [res]) ∧
        (∀ line, parseFormula exactModel line = parseFormula exactModel "2 + 3".toList →
          4 = (parseFormula exactModel "2 + 3".toList).length + 1 → 0 = 0 →
          buildExpression exactModel line =
            .ret (.TwoArgOp .AddOp (.GetValueOp ⟨2, 1⟩) (.GetValueOp ⟨3, 1⟩)))) :=
  ⟨by decide,
   buildAST_leaves_single_node exactModel 4 (parseFormula exactModel "2 + 3".toList) 0
     ⟨.TwoArgOp .AddOp (.GetValueOp ⟨2, 1⟩) (.GetValueOp ⟨3, 1⟩), 3,
       [.TwoArgOp .AddOp (.GetValueOp ⟨2, 1⟩) (.GetValueOp ⟨3, 1⟩)]⟩ (by decide) (by decide)⟩

/-! ## Propagation of failures -/

theorem collapseEvents_no_failure (st : OperationsStack D) (prio : Nat) (ev : Event D)
    (h : ev ∈ collapseEvents st prio) : ev.isFailure = false := by
  simp only [collapseEvents, List.mem_map] at h
  obtain ⟨s, _, rfl⟩ := h
  rfl

/-- A run of the loop of `buildAST` in which a recursive call returns no
tree, or a collapse before an operator returns no node, returns no tree. -/
theorem buildASTLoop_failure (fp : DoubleModel D) (tk : TokensChain D) (fuel pos : Nat)
    (prev : Option (IOperationPtr D)) (st : OperationsStack D)
    (h : ∃ ev ∈ buildASTLoopTrace fp tk fuel pos prev st, ev.isFailure = true) :
    ∃ r, buildASTLoop fp tk fuel pos prev st = .ret r ∧ r.res = .null := by
  induction fuel generalizing pos prev st with
  | zero => simp [buildASTLoopTrace] at h
  | succ fuel ih =>
    obtain ⟨ev, hev, hfail⟩ := h
    unfold buildASTLoopTrace at hev
    unfold buildASTLoop
    split at hev
    · rw [collapseEvents_no_failure st 0 ev hev] at hfail
      exact absurd hfail (by simp)
    · rename_i currToken hget
      simp only [hget]
      rcases List.mem_cons.1 hev with rfl | hev
      · exact absurd hfail (by simp [Event.isFailure])
      cases hty : currToken.m_type <;> simp only [hty] at hev ⊢
      case ttUndefined => simp at hev
      case ttNumVal => exact ih _ _ _ ⟨ev, hev, hfail⟩
      case ttRightBrace =>
        rw [collapseEvents_no_failure st 0 ev hev] at hfail
        exact absurd hfail (by simp)
      case ttLeftBrace =>
        cases hsub : buildASTLoop fp tk fuel (pos + 1) none [] with
        | ret sub =>
          simp only [hsub] at hev ⊢
          rcases List.mem_append.1 hev with hs | hrest
          · obtain ⟨r, hr, hnull⟩ := ih _ _ _ ⟨ev, hs, hfail⟩
            rw [hsub] at hr
            simp only [Outcome.ret.injEq] at hr
            subst hr
            simp [hnull, IOperationPtr.isNull]
          · split_ifs at hrest with h1 h2
            · simp [h1]
            · simp at hrest
            · simp only [h1, h2, Bool.false_eq_true, ↓reduceIte]
              exact ih _ _ _ ⟨ev, hrest, hfail⟩
        | fault =>
          simp only [hsub, List.append_nil] at hev
          obtain ⟨r, hr, _⟩ := ih _ _ _ ⟨ev, hev, hfail⟩
          rw [hsub] at hr
          exact Outcome.noConfusion hr
        | outOfFuel =>
          simp only [hsub, List.append_nil] at hev
          obtain ⟨r, hr, _⟩ := ih _ _ _ ⟨ev, hev, hfail⟩
          rw [hsub] at hr
          exact Outcome.noConfusion hr
      all_goals
        simp only [buildOpWithoutAgrs, isNull_twoArgOp, Bool.false_eq_true, ↓reduceIte] at hev ⊢
        cases prev with
        | none => exact ih _ _ _ ⟨ev, hev, hfail⟩
        | some p =>
          simp only at hev ⊢
          split_ifs at hev with hge
          · rw [if_pos hge]
            rcases List.mem_append.1 hev with hc | hrest
            · rw [collapseEvents_no_failure _ _ ev hc] at hfail
              exact absurd hfail (by simp)
            · revert hrest
              cases hcol : collapseStack fp st _ with
              | ret pr =>
                obtain ⟨collapseRes, st'⟩ := pr
                intro hrest
                simp only at hrest ⊢
                split_ifs at hrest with hcn
                · simp [hcn]
                · simp only [hcn, Bool.false_eq_true, ↓reduceIte]
                  exact ih _ _ _ ⟨ev, hrest, hfail⟩
              | fault => intro hrest; simp at hrest
              | outOfFuel => intro hrest; simp at hrest
          · rw [if_neg hge]
            exact ih _ _ _ ⟨ev, hev, hfail⟩

/-- C13. If, anywhere in a run of `buildAST` (in the call itself or in one
of its recursive calls), the recursive call made for a left brace returns no
tree, or the collapse made before pushing an operator returns no node, then
the call returns no tree; and when the call is the one `buildExpression`
makes, `buildExpression` returns no tree. -/
theorem failure_propagates (fp : DoubleModel D) (tk : TokensChain D) (fuel pos : Nat)
    (prev : Option (IOperationPtr D)) (st : OperationsStack D)
    (h : ∃ ev ∈ buildASTLoopTrace fp tk fuel pos prev st, ev.isFailure = true) :
    (∃ r, buildASTLoop fp tk fuel pos prev st = .ret r ∧ r.res = .null) ∧
      (∀ line, parseFormula fp line = tk → fuel = tk.length + 1 → pos = 0 → prev = none →
        st = [] → buildExpression fp line = .ret .null) := by
  obtain ⟨r, hr, hnull⟩ := buildASTLoop_failure fp tk fuel pos prev st h
  refine ⟨⟨r, hr, hnull⟩, ?_⟩
  rintro line hline rfl rfl rfl rfl
  unfold buildExpression
  simp only [hline, buildAST, hr, hnull, IOperationPtr.isNull]
  split_ifs <;> simp

theorem failure_propagates_witness :
    (∃ ev ∈ buildASTLoopTrace exactModel (parseFormula exactModel "( 1 + ) * 2".toList) 7 0
        none [], ev.isFailure = true) ∧
      (∃ r, buildASTLoop exactModel (parseFormula exactModel "( 1 + ) * 2".toList) 7 0 none [] =
        .ret r ∧ r.res = .null) ∧
      (∀ line, parseFormula exactModel line = parseFormula exactModel "( 1 + ) * 2".toList →
        7 = (parseFormula exactModel "( 1 + ) * 2".toList).length + 1 → 0 = 0 →
        (none : Option (IOperationPtr Frac)) = none → ([] : OperationsStack Frac) = [] →
        buildExpression exactModel line = .ret .null) :=
  have h : ∃ ev ∈ buildASTLoopTrace exactModel
      (parseFormula exactModel "( 1 + ) * 2".toList) 7 0 none [], ev.isFailure = true :=
    ⟨.subExprFailed 0, by decide, rfl⟩
  ⟨h, failure_propagates exactModel _ 7 0 none [] h⟩

/-! ## The stacks of a well-formed build -/

theorem complete_isNull (x : IOperationPtr D) (h : x.Complete) : x.isNull = false := by
  cases x with
  | null => exact absurd h (by simp [IOperationPtr.Complete])
  | GetValueOp v => rfl
  | TwoArgOp k l r => rfl

theorem complete_not_childless (x : IOperationPtr D) (h : x.Complete) :
    x.isChildlessOp = false := by
  cases x with
  | null => rfl
  | GetValueOp v => rfl
  | TwoArgOp k l r =>
    obtain ⟨hl, _⟩ := h
    cases l with
    | null => exact absurd hl (by simp [IOperationPtr.Complete])
    | GetValueOp v => rfl
    | TwoArgOp k' a b => rfl

theorem opNode_childless (op : TwoArgKind) : (opNode op : IOperationPtr D).isChildlessOp = true :=
  rfl

theorem opNode_priority (op : TwoArgKind) :
    (opNode op : IOperationPtr D).getPriority = op.getPriority := rfl

theorem shape_close_complete (sh : Shape D) (h : sh.OperandsComplete) : sh.abs.close.Complete := by
  cases sh with
  | one x => exact h
  | pending x op y =>
    simp only [Shape.abs]
    split_ifs <;> exact ⟨h.1, h.2⟩
  | both x lo y hi z => exact ⟨h.1, h.2.1, h.2.2⟩

theorem shape_alternating (sh : Shape D) (h : sh.OperandsComplete) : Alternating sh.stack := by
  cases sh with
  | one x => exact h
  | pending x op y => exact ⟨h.2, rfl, h.1⟩
  | both x lo y hi z => exact ⟨h.2.2, rfl, h.2.1, rfl, h.1⟩

theorem shape_length (sh : Shape D) : sh.stack.length ≤ 5 := by
  cases sh <;> simp [Shape.stack]

theorem shape_priorities (sh : Shape D) (h : sh.OperandsComplete) (hord : sh.Ordered) :
    (childlessPriorities sh.stack).Pairwise (fun a b => a > b) := by
  cases sh with
  | one x => simp [Shape.stack, childlessPriorities, complete_not_childless x h]
  | pending x op y =>
    simp [Shape.stack, childlessPriorities, complete_not_childless x h.1,
      complete_not_childless y h.2, opNode_childless]
  | both x lo y hi z =>
    simp [Shape.stack, childlessPriorities, complete_not_childless x h.1,
      complete_not_childless y h.2.1, complete_not_childless z h.2.2, opNode_childless,
      opNode_priority, hord.1, hord.2]

theorem reduce_complete (sh : Shape D) (op : TwoArgKind) (h : sh.OperandsComplete) :
    (sh.reduce op).OperandsComplete := by
  cases sh with
  | one x => exact h
  | pending x p y =>
    simp only [Shape.reduce]
    split_ifs
    · exact ⟨h.1, h.2⟩
    · exact h
  | both x lo y hi z =>
    simp only [Shape.reduce]
    split_ifs
    · exact ⟨h.1, h.2.1, h.2.2⟩
    · exact ⟨h.1, h.2.1, h.2.2⟩

theorem next_complete (sh : Shape D) (op : TwoArgKind) (t : IOperationPtr D)
    (h : sh.OperandsComplete) (ht : t.Complete) : (sh.next op t).OperandsComplete := by
  cases sh with
  | one x => exact ⟨h, ht⟩
  | pending x p y =>
    simp only [Shape.next, Shape.reduce]
    split_ifs
    · exact ⟨⟨h.1, h.2⟩, ht⟩
    · exact ⟨h.1, h.2, ht⟩
  | both x lo y hi z =>
    simp only [Shape.next, Shape.reduce]
    split_ifs
    · exact ⟨h.1, ⟨h.2.1, h.2.2⟩, ht⟩
    · exact ⟨⟨h.1, h.2.1, h.2.2⟩, ht⟩

theorem shape_complete (e : WExpr D) : e.shape.OperandsComplete := by
  induction e with
  | num v => trivial
  | paren e ih =>
    have := shape_close_complete e.shape ih
    rw [shape_abs] at this
    exact this
  | opNum e op v ih => exact next_complete _ _ _ ih trivial
  | opParen e op g ih ihg =>
    have := shape_close_complete g.shape ihg
    rw [shape_abs] at this
    exact next_complete _ _ _ ih this

theorem refParse_complete (e : WExpr D) : e.refParse.Complete := by
  have := shape_close_complete e.shape (shape_complete e)
  rw [shape_abs] at this
  exact this

/-- The stack on which an operator has just been pushed. -/
theorem pushed_read_ok (sh : Shape D) (op : TwoArgKind) (h : sh.OperandsComplete)
    (hord : sh.Ordered) :
    (childlessPriorities (opNode op :: (sh.reduce op).stack)).Pairwise (fun a b => a > b) ∧
      (opNode op :: (sh.reduce op).stack).length ≤ 5 := by
  have hle := getPriority_le_one op
  cases sh with
  | one x =>
    simp [Shape.reduce, Shape.stack, childlessPriorities, complete_not_childless x h,
      opNode_childless]
  | pending x p y =>
    simp only [Shape.reduce]
    split_ifs with hp
    · have hm := complete_not_childless (.TwoArgOp p x y) ⟨h.1, h.2⟩
      simp [Shape.stack, childlessPriorities, opNode_childless, hm]
    · simp [Shape.stack, childlessPriorities, complete_not_childless x h.1,
        complete_not_childless y h.2, opNode_childless, opNode_priority]
      omega
  | both x lo y hi z =>
    have hm := complete_not_childless (.TwoArgOp hi y z) ⟨h.2.1, h.2.2⟩
    simp only [Shape.reduce]
    split_ifs with hp
    · simp [Shape.stack, childlessPriorities, complete_not_childless x h.1,
        opNode_childless, opNode_priority, hord.1, hp, hm]
    · have hm2 := complete_not_childless (.TwoArgOp lo x (.TwoArgOp hi y z))
        ⟨h.1, h.2.1, h.2.2⟩
      simp [Shape.stack, childlessPriorities, opNode_childless, hm2]

/-- Every stack with which `collapseStack` is entered, when called on a stack
of a known shape, is alternating and holds at most five nodes. -/
theorem collapse_shape_trace (sh : Shape D) (prio : Nat) (h : sh.OperandsComplete) :
    ∀ ev ∈ collapseEvents sh.stack prio, GoodEvent ev := by
  intro ev hev
  simp only [collapseEvents, List.mem_map] at hev
  obtain ⟨s, hs, rfl⟩ := hev
  simp only [GoodEvent]
  cases sh with
  | one x =>
    simp only [Shape.stack, collapseStackTrace, collapseFromTrace, List.mem_singleton] at hs
    subst hs
    exact ⟨h, by simp⟩
  | pending x op y =>
    simp only [Shape.stack, collapseStackTrace, collapseFromTrace, complete_isNull x h.1,
      complete_isNull y h.2, opNode, isNull_twoArgOp, IOperationPtr.isTwoArgOp,
      IOperationPtr.setArgs, Bool.or_self, Bool.false_eq_true, ↓reduceIte, Bool.not_true,
      List.mem_cons] at hs
    rcases hs with rfl | hs
    · exact ⟨⟨h.2, rfl, h.1⟩, by simp⟩
    · split_ifs at hs
      · simp at hs
      · simp only [List.mem_singleton, List.not_mem_nil, or_false] at hs
        subst hs
        exact ⟨⟨h.1, h.2⟩, by simp⟩
  | both x lo y hi z =>
    simp only [Shape.stack, collapseStackTrace, collapseFromTrace, complete_isNull x h.1,
      complete_isNull y h.2.1, complete_isNull z h.2.2, opNode, isNull_twoArgOp,
      IOperationPtr.isTwoArgOp, IOperationPtr.setArgs, Bool.or_self, Bool.false_eq_true,
      ↓reduceIte, Bool.not_true, List.mem_cons] at hs
    rcases hs with rfl | hs
    · exact ⟨⟨h.2.2, rfl, h.2.1, rfl, h.1⟩, by simp⟩
    · split_ifs at hs
      · simp at hs
      · simp only [List.mem_cons, List.not_mem_nil, or_false] at hs
        subst hs
        exact ⟨⟨⟨h.2.1, h.2.2⟩, rfl, h.1⟩, by simp⟩
      · simp only [List.mem_cons, List.mem_singleton, List.not_mem_nil, or_false] at hs
        rcases hs with rfl | rfl
        · exact ⟨⟨⟨h.2.1, h.2.2⟩, rfl, h.1⟩, by simp⟩
        · exact ⟨⟨h.1, h.2.1, h.2.2⟩, by simp⟩

/-! ### Collapses that may fault -/

theorem collapseFrom_single_fault (fp : DoubleModel D) (prio : Nat) (x : IOperationPtr D)
    (hx : (x.calc fp).isSome = false) : collapseFrom fp prio x [] = .fault := by
  have : (x.calc fp).isNone = true := by
    cases hc : x.calc fp <;> simp_all
  simp [collapseFrom, this]

theorem collapseFrom_blocked_fault (fp : DoubleModel D) (prio : Nat) (x y : IOperationPtr D)
    (op : TwoArgKind) (rest : OperationsStack D) (hy : y.isNull = false)
    (hc : (y.calc fp).isSome = false) (hp : op.getPriority < prio) :
    collapseFrom fp prio y (opNode op :: x :: rest) = .fault := by
  have : (y.calc fp).isNone = true := by
    cases h : y.calc fp <;> simp_all
  rw [collapseFrom]
  simp [hy, this, opNode, isNull_twoArgOp, IOperationPtr.isTwoArgOp, getPriority_twoArgOp, hp]

/-- The final collapse on a stack of a known shape with complete operands:
the tree of the shape, or a fault when its evaluation is undefined. -/
theorem collapse_shape_final_cases (fp : DoubleModel D) (sh : Shape D)
    (h : sh.OperandsComplete) :
    collapseStack fp sh.stack 0 = .fault ∨
      ((sh.abs.close.calc fp).isSome ∧
        collapseStack fp sh.stack 0 = .ret (sh.abs.close, [sh.abs.close])) := by
  by_cases hdef : (sh.abs.close.calc fp).isSome
  · exact Or.inr ⟨hdef, collapse_shape_final fp sh hdef⟩
  · left
    have hdef' : (sh.abs.close.calc fp).isSome = false := by simpa using hdef
    cases sh with
    | one x => exact collapseFrom_single_fault fp 0 x hdef'
    | pending x op y =>
      have hc : (Shape.pending x op y).abs.close = .TwoArgOp op x y := by
        simp only [Shape.abs]; split_ifs <;> rfl
      rw [hc] at hdef'
      simp only [Shape.stack, collapseStack]
      rw [collapseFrom_merge fp 0 x y op [] (complete_isNull x h.1) (complete_isNull y h.2)
        (Nat.zero_le _)]
      exact collapseFrom_single_fault fp 0 _ hdef'
    | both x lo y hi z =>
      have hc : (Shape.both x lo y hi z).abs.close = .TwoArgOp lo x (.TwoArgOp hi y z) := rfl
      rw [hc] at hdef'
      simp only [Shape.stack, collapseStack]
      rw [collapseFrom_merge fp 0 y z hi _ (complete_isNull y h.2.1) (complete_isNull z h.2.2)
        (Nat.zero_le _)]
      rw [collapseFrom_merge fp 0 x _ lo [] (complete_isNull x h.1) (isNull_twoArgOp _ _ _)
        (Nat.zero_le _)]
      exact collapseFrom_single_fault fp 0 _ hdef'

/-- The collapse that precedes the push of an operator, on a stack of a known
shape with complete operands: the reduced shape, or a fault. -/
theorem collapse_shape_reduce_cases (fp : DoubleModel D) (sh : Shape D) (op : TwoArgKind)
    (p : IOperationPtr D) (hord : sh.Ordered) (h : sh.OperandsComplete)
    (hprev : sh.prev = some p) (hge : p.getPriority ≥ op.getPriority) :
    collapseStack fp sh.stack op.getPriority = .fault ∨
      ∃ res, res.isNull = false ∧
        collapseStack fp sh.stack op.getPriority = .ret (res, (sh.reduce op).stack) := by
  cases sh with
  | one x => simp [Shape.prev] at hprev
  | pending x q y =>
    simp only [Shape.prev, Option.some.injEq] at hprev
    subst hprev
    have hge' : q.getPriority ≥ op.getPriority := hge
    simp only [Shape.stack, collapseStack, Shape.reduce, hge', ↓reduceIte]
    rw [collapseFrom_merge fp _ x y q [] (complete_isNull x h.1) (complete_isNull y h.2) hge']
    by_cases hdef : ((IOperationPtr.TwoArgOp q x y).calc fp).isSome
    · exact Or.inr ⟨_, isNull_twoArgOp _ _ _, collapseFrom_single fp _ _ hdef⟩
    · exact Or.inl (collapseFrom_single_fault fp _ _ (by simpa using hdef))
  | both x lo y hi z =>
    obtain ⟨hlo, hhi⟩ := hord
    have hle := getPriority_le_one op
    simp only [Shape.stack, collapseStack, Shape.reduce]
    rw [collapseFrom_merge fp _ y z hi _ (complete_isNull y h.2.1) (complete_isNull z h.2.2)
      (by omega)]
    by_cases h1 : op.getPriority = 1
    · simp only [h1, ↓reduceIte, Shape.stack]
      by_cases hdef : ((IOperationPtr.TwoArgOp hi y z).calc fp).isSome
      · exact Or.inr ⟨_, isNull_twoArgOp _ _ _, collapseFrom_blocked fp 1 x _ lo [] hdef (by omega)⟩
      · exact Or.inl (collapseFrom_blocked_fault fp 1 x _ lo [] (isNull_twoArgOp _ _ _)
          (by simpa using hdef)
          (by omega))
    · simp only [h1, ↓reduceIte, Shape.stack]
      rw [collapseFrom_merge fp _ x _ lo [] (complete_isNull x h.1) (isNull_twoArgOp _ _ _)
        (by omega)]
      by_cases hdef : ((IOperationPtr.TwoArgOp lo x (.TwoArgOp hi y z)).calc fp).isSome
      · exact Or.inr ⟨_, isNull_twoArgOp _ _ _, collapseFrom_single fp _ _ hdef⟩
      · exact Or.inl (collapseFrom_single_fault fp _ _ (by simpa using hdef))

/-! ### Runs that may fault -/

theorem advances_trans (fp : DoubleModel D) (tk : TokensChain D)
    (f1 p1 : Nat) (v1 : Option (IOperationPtr D)) (s1 : OperationsStack D)
    (f2 p2 : Nat) (v2 : Option (IOperationPtr D)) (s2 : OperationsStack D)
    (f3 p3 : Nat) (v3 : Option (IOperationPtr D)) (s3 : OperationsStack D)
    (h12 : Advances fp tk f1 p1 v1 s1 f2 p2 v2 s2)
    (h23 : Advances fp tk f2 p2 v2 s2 f3 p3 v3 s3) :
    Advances fp tk f1 p1 v1 s1 f3 p3 v3 s3 := by
  obtain ⟨e1, g1, h1⟩ := h12
  obtain ⟨e2, g2, h2⟩ := h23
  rcases h1 with ⟨hf, ht⟩ | ⟨ho, ht⟩
  · exact ⟨e1, g1, Or.inl ⟨hf, ht⟩⟩
  · have hg : ∀ ev ∈ e1 ++ e2, GoodEvent ev := by
      intro ev hev
      rcases List.mem_append.1 hev with h | h
      · exact g1 ev h
      · exact g2 ev h
    rcases h2 with ⟨hf2, ht2⟩ | ⟨ho2, ht2⟩
    · exact ⟨e1 ++ e2, hg, Or.inl ⟨by rw [ho, hf2], by rw [ht, ht2]⟩⟩
    · exact ⟨e1 ++ e2, hg, Or.inr ⟨by rw [ho, ho2], by rw [ht, ht2, List.append_assoc]⟩⟩

theorem advances_num (fp : DoubleModel D) (tk : TokensChain D) (n pos : Nat) (v : D)
    (prev : Option (IOperationPtr D)) (st : OperationsStack D)
    (h : tk.get? pos = some ⟨.ttNumVal, v⟩)
    (hst : (childlessPriorities st).Pairwise (fun a b => a > b) ∧ st.length ≤ 5) :
    Advances fp tk (n + 1) pos prev st n (pos + 1) prev (.GetValueOp v :: st) := by
  refine ⟨[.readToken pos st], ?_, Or.inr ⟨step_num fp tk n pos v prev st h, ?_⟩⟩
  · intro ev hev
    simp only [List.mem_singleton] at hev
    subst hev
    exact hst
  · rw [buildASTLoopTrace, h]
    rfl


theorem trace_op_collapse (fp : DoubleModel D) (tk : TokensChain D) (n pos : Nat)
    (op : TwoArgKind) (p : IOperationPtr D) (st : OperationsStack D)
    (h : tk.get? pos = some (opToken fp op)) (hprev : p.getPriority ≥ op.getPriority) :
    buildASTLoopTrace fp tk (n + 1) pos (some p) st =
      Event.readToken pos st :: (collapseEvents st op.getPriority ++
        match collapseStack fp st op.getPriority with
        | .ret (collapseRes, st') =>
          if collapseRes.isNull then [Event.collapseFailed pos]
          else buildASTLoopTrace fp tk n (pos + 1) (some (opNode op)) (opNode op :: st')
        | .fault => []
        | .outOfFuel => []) := by
  rw [buildASTLoopTrace, h]
  cases op <;>
    simp only [opToken, buildOpWithoutAgrs, isNull_twoArgOp, opNode, getPriority_twoArgOp,
      ge_iff_le, hprev, Bool.false_eq_true, ↓reduceIte]

theorem trace_op_push (fp : DoubleModel D) (tk : TokensChain D) (n pos : Nat) (op : TwoArgKind)
    (prev : Option (IOperationPtr D)) (st : OperationsStack D)
    (h : tk.get? pos = some (opToken fp op))
    (hprev : ∀ p, prev = some p → p.getPriority < op.getPriority) :
    buildASTLoopTrace fp tk (n + 1) pos prev st =
      Event.readToken pos st ::
        buildASTLoopTrace fp tk n (pos + 1) (some (opNode op)) (opNode op :: st) := by
  rw [buildASTLoopTrace, h]
  cases prev with
  | none => cases op <;> rfl
  | some p =>
    have hp := Nat.not_le.2 (hprev p rfl)
    cases op <;>
      simp only [opToken, buildOpWithoutAgrs, isNull_twoArgOp, opNode, getPriority_twoArgOp,
        ge_iff_le, hp, Bool.false_eq_true, ↓reduceIte]

theorem step_op_collapse_fault (fp : DoubleModel D) (tk : TokensChain D) (n pos : Nat)
    (op : TwoArgKind) (p : IOperationPtr D) (st : OperationsStack D)
    (h : tk.get? pos = some (opToken fp op)) (hprev : p.getPriority ≥ op.getPriority)
    (hcol : collapseStack fp st op.getPriority = .fault) :
    buildASTLoop fp tk (n + 1) pos (some p) st = .fault := by
  rw [buildASTLoop, h]
  cases op <;>
    simp only [opToken, buildOpWithoutAgrs, isNull_twoArgOp, opNode, getPriority_twoArgOp,
      ge_iff_le, hprev, hcol, Bool.false_eq_true, ↓reduceIte]

/-- One operator token read on a stack of a known shape, whether or not the
collapse before the push faults. -/
theorem advances_op (fp : DoubleModel D) (tk : TokensChain D) (n pos : Nat) (sh : Shape D)
    (op : TwoArgKind) (h : tk.get? pos = some (opToken fp op)) (hord : sh.Ordered)
    (hc : sh.OperandsComplete) :
    Advances fp tk (n + 1) pos sh.prev sh.stack n (pos + 1) (some (opNode op))
      (opNode op :: (sh.reduce op).stack) := by
  have hread : GoodEvent (Event.readToken pos sh.stack) :=
    ⟨shape_priorities sh hc hord, shape_length sh⟩
  by_cases hcase : ∃ p, sh.prev = some p ∧ p.getPriority ≥ op.getPriority
  · obtain ⟨p, hp, hge⟩ := hcase
    have hgood : ∀ ev ∈ Event.readToken pos sh.stack :: collapseEvents sh.stack op.getPriority,
        GoodEvent ev := by
      intro ev hev
      rcases List.mem_cons.1 hev with rfl | hev
      · exact hread
      · exact collapse_shape_trace sh _ hc ev hev
    refine ⟨Event.readToken pos sh.stack :: collapseEvents sh.stack op.getPriority, hgood, ?_⟩
    rw [hp]
    rcases collapse_shape_reduce_cases fp sh op p hord hc hp hge with hf | ⟨res, hnn, hcol⟩
    · left
      refine ⟨step_op_collapse_fault fp tk n pos op p _ h hge hf, ?_⟩
      rw [trace_op_collapse fp tk n pos op p _ h hge, hf]
      simp
    · right
      refine ⟨step_op_collapse fp tk n pos op p _ _ res h hge hcol hnn, ?_⟩
      rw [trace_op_collapse fp tk n pos op p _ h hge, hcol]
      simp [hnn]
  · have hlt : ∀ p, sh.prev = some p → p.getPriority < op.getPriority := by
      intro p hp
      by_contra hn
      exact hcase ⟨p, hp, Nat.not_lt.1 hn⟩
    have hred : sh.reduce op = sh := by
      cases sh with
      | one x => rfl
      | pending x q y =>
        have := hlt (opNode q) rfl
        simp only [Shape.reduce]
        rw [if_neg]
        simpa [opNode, getPriority_twoArgOp] using this
      | both x lo y hi z =>
        have := hlt (opNode hi) rfl
        have hle := getPriority_le_one op
        simp only [opNode, getPriority_twoArgOp] at this
        have := hord.2
        omega
    rw [hred]
    refine ⟨[Event.readToken pos sh.stack], ?_, Or.inr ⟨step_op_push fp tk n pos op _ _ h hlt, ?_⟩⟩
    · intro ev hev
      simp only [List.mem_singleton] at hev
      subst hev
      exact hread
    · rw [trace_op_push fp tk n pos op _ _ h hlt]
      rfl

/-- A left brace whose recursive call either faults or returns a tree with a
defined evaluation, with good events in both cases. -/
theorem advances_lbrace (fp : DoubleModel D) (tk : TokensChain D) (n pos pos' : Nat) (x : D)
    (prev : Option (IOperationPtr D)) (st : OperationsStack D) (t : IOperationPtr D)
    (h : tk.get? pos = some ⟨.ttLeftBrace, x⟩)
    (hst : (childlessPriorities st).Pairwise (fun a b => a > b) ∧ st.length ≤ 5)
    (hev : ∀ ev ∈ buildASTLoopTrace fp tk n (pos + 1) none [], GoodEvent ev)
    (hsub : buildASTLoop fp tk n (pos + 1) none [] = .fault ∨
      ((t.calc fp).isSome ∧ buildASTLoop fp tk n (pos + 1) none [] = .ret ⟨t, pos', [t]⟩)) :
    Advances fp tk (n + 1) pos prev st n (pos' + 1) prev (t :: st) := by
  have hgood : ∀ ev ∈ Event.readToken pos st :: buildASTLoopTrace fp tk n (pos + 1) none [],
      GoodEvent ev := by
    intro ev hmem
    rcases List.mem_cons.1 hmem with rfl | hmem
    · exact hst
    · exact hev ev hmem
  refine ⟨Event.readToken pos st :: buildASTLoopTrace fp tk n (pos + 1) none [], hgood, ?_⟩
  rcases hsub with hf | ⟨hdef, hret⟩
  · left
    constructor
    · rw [buildASTLoop, h]
      simp only [hf]
    · rw [buildASTLoopTrace, h]
      simp only [hf, List.append_nil]
  · right
    constructor
    · exact step_lbrace fp tk n pos x prev st _ h hret (isNull_of_calc fp t hdef) hdef
    · rw [buildASTLoopTrace, h]
      simp only [hret, isNull_of_calc fp t hdef, isNone_of_calc fp t hdef, Bool.false_eq_true,
        ↓reduceIte, List.cons_append]


theorem empty_read_ok :
    (childlessPriorities ([] : OperationsStack D)).Pairwise (fun a b => a > b) ∧
      ([] : OperationsStack D).length ≤ 5 := by
  simp [childlessPriorities]

/-- From the run of a level up to the end of an expression to the run to
the end of the level: the events are good, and the level faults or returns
the reference parse, whose evaluation is then defined. -/
theorem full_of_advances (fp : DoubleModel D) (e : WExpr D)
    (hlevel : ∀ (tk pre suf : TokensChain D) (n : Nat), tk = pre ++ (e.tokens fp ++ suf) →
      (e.tokens fp).length ≤ n + e.items →
      Advances fp tk (n + e.items) pre.length none [] n (pre.length + (e.tokens fp).length)
        e.shape.prev e.shape.stack)
    (tk pre suf : TokensChain D) (m : Nat) (htk : tk = pre ++ (e.tokens fp ++ suf))
    (hsuf : suf = [] ∨ ∃ x rest, suf = ⟨.ttRightBrace, x⟩ :: rest)
    (hm : (e.tokens fp).length + 1 ≤ m) :
    (∀ ev ∈ buildASTLoopTrace fp tk m pre.length none [], GoodEvent ev) ∧
      (buildASTLoop fp tk m pre.length none [] = .fault ∨
        ((e.refParse.calc fp).isSome ∧
          buildASTLoop fp tk m pre.length none [] =
            .ret ⟨e.refParse, pre.length + (e.tokens fp).length, [e.refParse]⟩)) := by
  have hi := items_le_tokens fp e
  obtain ⟨k, hk⟩ : ∃ k, m = (k + 1) + e.items := ⟨m - e.items - 1, by omega⟩
  obtain ⟨evs, hgood, hcases⟩ := hlevel tk pre suf (k + 1) htk (by omega)
  rw [hk]
  rcases hcases with ⟨hf, ht⟩ | ⟨ho, ht⟩
  · exact ⟨by rw [ht]; exact hgood, Or.inl hf⟩
  · have hc := shape_complete e
    have hfin : buildASTFinish fp (pre.length + (e.tokens fp).length) e.shape.stack = .fault ∨
        ((e.refParse.calc fp).isSome ∧
          buildASTFinish fp (pre.length + (e.tokens fp).length) e.shape.stack =
            .ret ⟨e.refParse, pre.length + (e.tokens fp).length, [e.refParse]⟩) := by
      rcases collapse_shape_final_cases fp e.shape hc with hfl | ⟨hdef, hr⟩
      · left
        simp only [buildASTFinish, hfl]
      · right
        rw [shape_abs] at hdef hr
        exact ⟨hdef, by simp only [buildASTFinish, hr, WExpr.refParse]⟩
    have hcol := collapse_shape_trace e.shape 0 hc
    rcases hsuf with rfl | ⟨x, rest, rfl⟩
    · have hget : tk.get? (pre.length + (e.tokens fp).length) = none := by
        rw [htk]; exact get?_mid_nil _ _
      constructor
      · rw [ht]
        intro ev hev
        rcases List.mem_append.1 hev with h | h
        · exact hgood ev h
        · rw [buildASTLoopTrace, hget] at h
          exact hcol ev h
      · rw [ho, step_end fp tk k _ _ _ hget]
        exact hfin
    · have hget : tk.get? (pre.length + (e.tokens fp).length) = some ⟨.ttRightBrace, x⟩ := by
        rw [htk]; exact get?_mid _ _ _ _
      constructor
      · rw [ht]
        intro ev hev
        rcases List.mem_append.1 hev with h | h
        · exact hgood ev h
        · rw [buildASTLoopTrace, hget] at h
          rcases List.mem_cons.1 h with rfl | h
          · exact ⟨shape_priorities e.shape hc (shape_ordered e), shape_length e.shape⟩
          · exact hcol ev h
      · rw [ho, step_rbrace fp tk k _ x _ _ hget]
        exact hfin

/-- The loop of `buildAST` over the tokens of a well-formed expression, from
the start of a level, whatever its evaluation: it faults, or it arrives behind
the expression with the stack in the shape of the expression, and all the
events on the way are good. -/
theorem run_level_events (fp : DoubleModel D) (e : WExpr D) :
    ∀ (tk pre suf : TokensChain D) (n : Nat), tk = pre ++ (e.tokens fp ++ suf) →
      (e.tokens fp).length ≤ n + e.items →
      Advances fp tk (n + e.items) pre.length none [] n (pre.length + (e.tokens fp).length)
        e.shape.prev e.shape.stack := by
  induction e with
  | num v =>
    intro tk pre suf n htk _
    have hget : tk.get? pre.length = some ⟨.ttNumVal, v⟩ := by
      rw [htk]; exact get?_append_cons _ _ _
    exact advances_num fp tk n _ v none [] hget empty_read_ok
  | paren g ih =>
    intro tk pre suf n htk hn
    have hget : tk.get? pre.length = some ⟨.ttLeftBrace, fp.zero⟩ := by
      rw [htk]; exact get?_append_cons _ _ _
    have hsub := full_of_advances fp g ih tk (pre ++ [⟨.ttLeftBrace, fp.zero⟩])
      (⟨.ttRightBrace, fp.zero⟩ :: suf) n (by simp [htk, WExpr.tokens])
      (Or.inr ⟨_, _, rfl⟩) (by simp [WExpr.tokens, WExpr.items] at hn; omega)
    simp only [List.length_append, List.length_singleton] at hsub
    have hadv := advances_lbrace fp tk n pre.length _ fp.zero none [] g.refParse hget
      empty_read_ok hsub.1 hsub.2
    have hpos : pre.length + 1 + (g.tokens fp).length + 1 =
        pre.length + ((WExpr.paren g).tokens fp).length := by
      simp [WExpr.tokens]; omega
    rw [hpos] at hadv
    exact hadv
  | opNum e op v ih =>
    intro tk pre suf n htk hn
    simp only [WExpr.tokens, WExpr.items, List.length_append, List.length_cons,
      List.length_nil] at hn
    have htk1 : tk = pre ++ (e.tokens fp ++ (opToken fp op :: ⟨.ttNumVal, v⟩ :: suf)) := by
      simp [htk, WExpr.tokens]
    have h1 := ih tk pre _ (n + 2) htk1 (by omega)
    have hfuel : n + (e.opNum op v).items = n + 2 + e.items := by
      simp only [WExpr.items]; omega
    rw [hfuel]
    have h2 := advances_op fp tk (n + 1) (pre.length + (e.tokens fp).length) e.shape op
      (by rw [htk1]; exact get?_mid _ _ _ _) (shape_ordered e) (shape_complete e)
    have hget2 : tk.get? (pre.length + (e.tokens fp).length + 1) = some ⟨.ttNumVal, v⟩ := by
      have := get?_mid pre (e.tokens fp ++ [opToken fp op]) (⟨.ttNumVal, v⟩ : RawToken D) suf
      simp only [List.length_append, List.length_singleton, List.append_assoc,
        List.singleton_append] at this
      rw [htk1, ← this]
      congr 1
    have h3 := advances_num fp tk n _ v (some (opNode op)) _ hget2
      (pushed_read_ok e.shape op (shape_complete e) (shape_ordered e))
    have h := advances_trans fp tk _ _ _ _ _ _ _ _ _ _ _ _ h1
      (advances_trans fp tk _ _ _ _ _ _ _ _ _ _ _ _ h2 h3)
    obtain ⟨hs, hp⟩ := next_stack e.shape op (.GetValueOp v)
    have hpos : pre.length + (e.tokens fp).length + 1 + 1 =
        pre.length + ((e.opNum op v).tokens fp).length := by
      simp [WExpr.tokens]; omega
    simp only [WExpr.shape, hs, hp]
    rw [← hpos]
    exact h
  | opParen e op g ih ihg =>
    intro tk pre suf n htk hn
    have hi := items_le_tokens fp e
    simp only [WExpr.tokens, WExpr.items, List.length_append, List.length_cons,
      List.length_nil] at hn
    have htk1 : tk = pre ++ (e.tokens fp ++ (opToken fp op :: ⟨.ttLeftBrace, fp.zero⟩ ::
        (g.tokens fp ++ ⟨.ttRightBrace, fp.zero⟩ :: suf))) := by
      simp [htk, WExpr.tokens]
    have h1 := ih tk pre _ (n + 2) htk1 (by omega)
    have hfuel : n + (e.opParen op g).items = n + 2 + e.items := by
      simp only [WExpr.items]; omega
    rw [hfuel]
    have h2 := advances_op fp tk (n + 1) (pre.length + (e.tokens fp).length) e.shape op
      (by rw [htk1]; exact get?_mid _ _ _ _) (shape_ordered e) (shape_complete e)
    have hget2 : tk.get? (pre.length + (e.tokens fp).length + 1) =
        some ⟨.ttLeftBrace, fp.zero⟩ := by
      have := get?_mid pre (e.tokens fp ++ [opToken fp op])
        (⟨.ttLeftBrace, fp.zero⟩ : RawToken D) (g.tokens fp ++ ⟨.ttRightBrace, fp.zero⟩ :: suf)
      simp only [List.length_append, List.length_singleton, List.append_assoc,
        List.singleton_append] at this
      rw [htk1, ← this]
      congr 1
    have hsub := full_of_advances fp g ihg tk
      (pre ++ (e.tokens fp ++ [opToken fp op, ⟨.ttLeftBrace, fp.zero⟩]))
      (⟨.ttRightBrace, fp.zero⟩ :: suf) n (by simp [htk1])
      (Or.inr ⟨_, _, rfl⟩) (by omega)
    simp only [List.length_append, List.length_cons, List.length_nil] at hsub
    have hpos1 : pre.length + ((e.tokens fp).length + (0 + 1 + 1)) =
        pre.length + (e.tokens fp).length + 1 + 1 := by omega
    rw [hpos1] at hsub
    have h3 := advances_lbrace fp tk n _ _ fp.zero (some (opNode op)) _ g.refParse hget2
      (pushed_read_ok e.shape op (shape_complete e) (shape_ordered e)) hsub.1 hsub.2
    have h := advances_trans fp tk _ _ _ _ _ _ _ _ _ _ _ _ h1
      (advances_trans fp tk _ _ _ _ _ _ _ _ _ _ _ _ h2 h3)
    obtain ⟨hs, hp⟩ := next_stack e.shape op g.refParse
    have hpos : pre.length + (e.tokens fp).length + 1 + 1 + (g.tokens fp).length + 1 =
        pre.length + ((e.opParen op g).tokens fp).length := by
      simp [WExpr.tokens]; omega
    simp only [WExpr.shape, hs, hp]
    rw [← hpos]
    exact h

/-- All the events of the build of a well-formed expression are good. -/
theorem wellformed_events_good (fp : DoubleModel D) (e : WExpr D) :
    ∀ ev ∈ buildASTLoopTrace fp (e.tokens fp) ((e.tokens fp).length + 1) 0 none [],
      GoodEvent ev := by
  have h := full_of_advances fp e (run_level_events fp e) (e.tokens fp) [] []
    ((e.tokens fp).length + 1) (by simp) (Or.inl rfl) (Nat.le_refl _)
  simpa using h.1

/-! ## The claims about the stacks of a well-formed build -/

theorem alternating_odd (st : OperationsStack D) (h : Alternating st) : st.length % 2 = 1 := by
  induction st using Alternating.induct with
  | case1 => exact absurd h (by simp [Alternating])
  | case2 x => rfl
  | case3 y o rest ih =>
    have := ih h.2.2
    simp only [List.length_cons]
    omega

theorem alternating_head (x : IOperationPtr D) (rest : OperationsStack D)
    (h : Alternating (x :: rest)) : x.Complete := by
  cases rest with
  | nil => exact h
  | cons o rest => exact h.1

/-- C15. At every call of `collapseStack` made while the tokens of a
well-formed expression are built (the recursive calls included), the stack
holds an odd number of nodes that alternate complete operand, childless
binary operator, ..., complete operand; so a call that pops a triple pops a
complete right operand, a childless operator and a complete left operand. -/
theorem collapse_calls_alternate (fp : DoubleModel D) (e : WExpr D) (st : OperationsStack D)
    (prio : Nat)
    (h : Event.collapseCall st prio ∈
      buildASTLoopTrace fp (e.tokens fp) ((e.tokens fp).length + 1) 0 none []) :
    Alternating st ∧ st.length % 2 = 1 ∧
      (∀ rArg op lArg rest, st = rArg :: op :: lArg :: rest →
        rArg.Complete ∧ op.isChildlessOp = true ∧ lArg.Complete) := by
  have hg := (wellformed_events_good fp e _ h).1
  refine ⟨hg, alternating_odd st hg, ?_⟩
  rintro rArg op lArg rest rfl
  exact ⟨hg.1, hg.2.1, alternating_head lArg rest hg.2.2⟩

theorem collapse_calls_alternate_witness :
    Event.collapseCall
        [.GetValueOp ⟨3, 1⟩, .TwoArgOp .MulOp .null .null, .GetValueOp ⟨2, 1⟩,
          .TwoArgOp .AddOp .null .null, .GetValueOp (⟨1, 1⟩ : Frac)] 0 ∈
      buildASTLoopTrace exactModel
        ((WExpr.opNum (.opNum (.num ⟨1, 1⟩) .AddOp ⟨2, 1⟩) .MulOp ⟨3, 1⟩).tokens exactModel)
        (((WExpr.opNum (.opNum (.num ⟨1, 1⟩) .AddOp ⟨2, 1⟩) .MulOp ⟨3, 1⟩).tokens
          exactModel).length + 1) 0 none [] ∧
      (Alternating [.GetValueOp ⟨3, 1⟩, .TwoArgOp .MulOp .null .null, .GetValueOp ⟨2, 1⟩,
          .TwoArgOp .AddOp .null .null, .GetValueOp (⟨1, 1⟩ : Frac)] ∧
        [IOperationPtr.GetValueOp ⟨3, 1⟩, .TwoArgOp .MulOp .null .null, .GetValueOp ⟨2, 1⟩,
          .TwoArgOp .AddOp .null .null, .GetValueOp (⟨1, 1⟩ : Frac)].length % 2 = 1 ∧
        (∀ rArg op lArg rest,
          [IOperationPtr.GetValueOp ⟨3, 1⟩, .TwoArgOp .MulOp .null .null, .GetValueOp ⟨2, 1⟩,
            .TwoArgOp .AddOp .null .null, .GetValueOp (⟨1, 1⟩ : Frac)] =
              rArg :: op :: lArg :: rest →
          rArg.Complete ∧ op.isChildlessOp = true ∧ lArg.Complete)) :=
  ⟨by decide,
   collapse_calls_alternate exactModel
     (.opNum (.opNum (.num ⟨1, 1⟩) .AddOp ⟨2, 1⟩) .MulOp ⟨3, 1⟩) _ 0 (by decide)⟩

/-- C20. Each time `buildAST` is about to read a token while the tokens of a
well-formed expression are built, the childless binary operators on the stack
of its level have strictly increasing priority from the bottom to the top, and
the stack holds at most five nodes; the stacks handed to `collapseStack` hold
at most five nodes too. -/
theorem read_stacks_ordered (fp : DoubleModel D) (e : WExpr D) (pos : Nat)
    (st : OperationsStack D)
    (h : Event.readToken pos st ∈
      buildASTLoopTrace fp (e.tokens fp) ((e.tokens fp).length + 1) 0 none []) :
    (childlessPriorities st).Pairwise (fun a b => a > b) ∧ st.length ≤ 5 ∧
      (∀ s prio, Event.collapseCall s prio ∈
          buildASTLoopTrace fp (e.tokens fp) ((e.tokens fp).length + 1) 0 none [] →
        s.length ≤ 5) := by
  have hg := wellformed_events_good fp e _ h
  exact ⟨hg.1, hg.2, fun s prio hs => (wellformed_events_good fp e _ hs).2⟩

theorem read_stacks_ordered_witness :
    Event.readToken 5
        [.GetValueOp ⟨3, 1⟩, .TwoArgOp .MulOp .null .null, .GetValueOp ⟨2, 1⟩,
          .TwoArgOp .AddOp .null .null, .GetValueOp (⟨1, 1⟩ : Frac)] ∈
      buildASTLoopTrace exactModel
        ((WExpr.opNum (.opNum (.opNum (.num ⟨1, 1⟩) .AddOp ⟨2, 1⟩) .MulOp ⟨3, 1⟩) .SubOp
          ⟨4, 1⟩).tokens exactModel)
        (((WExpr.opNum (.opNum (.opNum (.num ⟨1, 1⟩) .AddOp ⟨2, 1⟩) .MulOp ⟨3, 1⟩) .SubOp
          ⟨4, 1⟩).tokens exactModel).length + 1) 0 none [] ∧
      childlessPriorities
        [.GetValueOp ⟨3, 1⟩, .TwoArgOp .MulOp .null .null, .GetValueOp ⟨2, 1⟩,
          .TwoArgOp .AddOp .null .null, .GetValueOp (⟨1, 1⟩ : Frac)] = [1, 0] ∧
      ((childlessPriorities
          [.GetValueOp ⟨3, 1⟩, .TwoArgOp .MulOp .null .null, .GetValueOp ⟨2, 1⟩,
            .TwoArgOp .AddOp .null .null, .GetValueOp (⟨1, 1⟩ : Frac)]).Pairwise
            (fun a b => a > b) ∧
        [IOperationPtr.GetValueOp ⟨3, 1⟩, .TwoArgOp .MulOp .null .null, .GetValueOp ⟨2, 1⟩,
          .TwoArgOp .AddOp .null .null, .GetValueOp (⟨1, 1⟩ : Frac)].length ≤ 5 ∧
        (∀ s prio, Event.collapseCall s prio ∈
            buildASTLoopTrace exactModel
              ((WExpr.opNum (.opNum (.opNum (.num ⟨1, 1⟩) .AddOp ⟨2, 1⟩) .MulOp ⟨3, 1⟩) .SubOp
                ⟨4, 1⟩).tokens exactModel)
              (((WExpr.opNum (.opNum (.opNum (.num ⟨1, 1⟩) .AddOp ⟨2, 1⟩) .MulOp ⟨3, 1⟩)
                .SubOp ⟨4, 1⟩).tokens exactModel).length + 1) 0 none [] →
          s.length ≤ 5)) :=
  ⟨by decide, by decide,
   read_stacks_ordered exactModel
     (.opNum (.opNum (.opNum (.num ⟨1, 1⟩) .AddOp ⟨2, 1⟩) .MulOp ⟨3, 1⟩) .SubOp ⟨4, 1⟩) 5 _
     (by decide)⟩

end fc
